import Mathlib

/-!
# Counting distinct primes from a binary string

A shallow embedding of `bit_manipulation/count_distinct_primes_from_binary_string.cpp`.

* C++ `int` values are integers (`Int`); every arithmetic result is reduced to the
  32-bit two's complement range by `wrap32`.
* The global `std::vector<bool> is_prime` is an `Array Bool` passed explicitly.
  Indexing outside the vector has no defined result and is `none`.
* A `std::string` is a `String` whose characters stand for its bytes; the inputs of
  interest hold the characters `'0'` and `'1'` only.
* Loops are recursive functions on a fuel counter; running out of fuel is `none`.
  The theorems show that, with enough fuel, every run ends with `some` result.
* The definitions named `...Checked` are the same computations in which a result outside
  the range of `int` is a failure instead of being reduced; they are used to state that
  no overflow occurs.
-/

namespace CountPrimes

/-! ## Machine integers -/

/-- Reduction of an integer to the 32-bit two's complement range `[-2^31, 2^31)`. -/
def wrap32 (x : Int) : Int := (x + 2147483648) % 4294967296 - 2147483648

/-- The C++ expression `a << b` on `int`: the product `a * 2^b`, reduced to 32 bits.
(A negative shift count contributes no shift.) -/
def shl32 (a b : Int) : Int := wrap32 (a * 2 ^ b.toNat)

/-- Number of one bits among the lowest `w` binary digits of `x`. -/
def popcountBits : Nat → Nat → Nat
  | 0, _ => 0
  | w + 1, x => x % 2 + popcountBits w (x / 2)

/-- The builtin `__builtin_popcount`: its `int` argument is converted to `unsigned int`
(reduction modulo `2^32`), and the number of one bits of these 32 bits is returned. -/
def popcount32 (x : Int) : Int := (popcountBits 32 (x % 4294967296).toNat : Nat)

/-! ## The global table -/

/-- `const int MAX = 1e6;` -/
def MAX : Int := 1000000

/-- Read `is_prime[i]`; `none` when the index is outside the vector. -/
def readAt (t : Array Bool) (i : Int) : Option Bool :=
  if 0 ≤ i then t[i.toNat]? else none

/-- The assignment `is_prime[i] = v`; `none` when the index is outside the vector. -/
def writeAt (t : Array Bool) (i : Int) (v : Bool) : Option (Array Bool) :=
  if h : 0 ≤ i ∧ i.toNat < t.size then some (t.set ⟨i.toNat, h.2⟩ v) else none

/-- The call `v.assign(count, value)` of `std::vector`: whatever the vector held, it
now holds `count` copies of `value`. -/
def assign (_v : Array Bool) (count : Int) (value : Bool) : Array Bool :=
  mkArray count.toNat value

/-! ## `precomputePrimes` -/

/-- The inner loop `for (int j = ...; j <= MAX; j += i) is_prime[j] = false;`,
started at the current value of `j`. -/
def clearMultiples (i : Int) : Nat → Int → Array Bool → Option (Array Bool)
  | 0, _, _ => none
  | fuel + 1, j, t =>
    if j ≤ MAX then
      (writeAt t j false).bind fun t1 => clearMultiples i fuel (wrap32 (j + i)) t1
    else some t

/-- The outer loop `for (int i = ...; i * i <= MAX; ++i)`, started at the current value
of `i`. Each run of the inner loop gets the fuel `inner`. -/
def sieveLoop (inner : Nat) : Nat → Int → Array Bool → Option (Array Bool)
  | 0, _, _ => none
  | fuel + 1, i, t =>
    if wrap32 (i * i) ≤ MAX then
      (readAt t i).bind fun b =>
        (if b then clearMultiples i inner (wrap32 (i * i)) t else some t).bind fun t1 =>
          sieveLoop inner fuel (wrap32 (i + 1)) t1
    else some t

/-- The function `precomputePrimes`. The argument `is_prime` is the content of the global
table before the call, the result is its content after the call. -/
def precomputePrimes (fuel : Nat) (is_prime : Array Bool) : Option (Array Bool) :=
  -- is_prime.assign(MAX + 1, true);  is_prime[0] = is_prime[1] = false;
  (writeAt (assign is_prime (wrap32 (MAX + 1)) true) 1 false).bind fun t1 =>
  (writeAt t1 0 false).bind fun t2 =>
  -- for (int i = 2; i * i <= MAX; ++i) ...
  sieveLoop fuel fuel 2 t2

/-! ## `countPrimeBinaryStrings` -/

/-- State of the counting loop: the loop variable `i`, the set `seen` and `cnt`. -/
structure ScanState where
  i : Int
  seen : Finset Int
  cnt : Int

/-- The loop `for (int i = ...; i < limit; ++i)` of `countPrimeBinaryStrings`, started in
the state `st`. The table is only read when the population count test succeeds
(`&&` evaluates its right operand only then). -/
def scanLoop (is_prime : Array Bool) (k limit : Int) : Nat → ScanState → Option ScanState
  | 0, _ => none
  | fuel + 1, st =>
    if st.i < limit then
      (if popcount32 st.i ≤ k then readAt is_prime st.i else some false).bind fun hit =>
        if hit then
          if st.i ∉ st.seen then
            scanLoop is_prime k limit fuel
              ⟨wrap32 (st.i + 1), insert st.i st.seen, wrap32 (st.cnt + 1)⟩
          else
            scanLoop is_prime k limit fuel ⟨wrap32 (st.i + 1), st.seen, st.cnt⟩
        else
          scanLoop is_prime k limit fuel ⟨wrap32 (st.i + 1), st.seen, st.cnt⟩
    else some st

/-- `int n = s.length();` -/
def lengthOf (s : String) : Int := wrap32 (s.length : Nat)

/-- `int k = std::count(s.begin(), s.end(), '1');` -/
def onesOf (s : String) : Int := wrap32 (s.data.count '1' : Nat)

/-- `int limit = ((1 << k) - 1) << (n - k);` -/
def limitOf (n k : Int) : Int := shl32 (wrap32 (shl32 1 k - 1)) (wrap32 (n - k))

/-- The state in which the counting loop of `countPrimeBinaryStrings` ends. -/
def scanOf (fuel : Nat) (is_prime : Array Bool) (s : String) : Option ScanState :=
  scanLoop is_prime (onesOf s) (limitOf (lengthOf s) (onesOf s)) fuel ⟨2, ∅, 0⟩

/-- The function `countPrimeBinaryStrings`: the value of `cnt` when the loop has ended. -/
def countPrimeBinaryStrings (fuel : Nat) (is_prime : Array Bool) (s : String) : Option Int :=
  (scanOf fuel is_prime s).map fun st => st.cnt

/-! ## Notions used to state the properties -/

/-- The table `t` has `N + 1` entries and entry `p` is true exactly when `P p`. -/
def Marks (t : Array Bool) (N : Nat) (P : Nat → Prop) : Prop :=
  t.size = N + 1 ∧ ∀ p, p ≤ N → ∃ b, t[p]? = some b ∧ (b = true ↔ P p)

/-- The number `p` is at least two and no `d` with `2 ≤ d < i` and `d * d ≤ p` divides it:
the content of entry `p` when the outer loop of the sieve reaches `i`. -/
def NoDivBelow (i p : Nat) : Prop :=
  2 ≤ p ∧ ∀ d, 2 ≤ d → d < i → d * d ≤ p → ¬ d ∣ p

/-- Population count of a natural number: the sum of its binary digits. -/
def popcount (x : Nat) : Nat := (Nat.digits 2 x).sum

/-- The numbers `i` with `2 ≤ i < limit` that the counting loop admits for the bit budget
`k`: population count at most `k`, and prime. -/
def counted (k : Int) (limit : Nat) : Finset Nat :=
  (Finset.range limit).filter fun i => 2 ≤ i ∧ (popcount i : Int) ≤ k ∧ Nat.Prime i

/-- The state of the counting loop when it is about to test `i < limit`. -/
def scanStateAt (k : Int) (i : Nat) : ScanState :=
  ⟨(i : Int), (counted k i).image (fun x : Nat => (x : Int)), ((counted k i).card : Int)⟩

/-- Number of `'1'` characters of the string. -/
def ones (s : String) : Nat := s.data.count '1'

/-- The value of `((1 << k) - 1) << (n - k)` in exact arithmetic. -/
def exactLimit (n k : Nat) : Nat := (2 ^ k - 1) * 2 ^ (n - k)

/-- Admissible input: a non-empty string over `'0'`, `'1'` whose limit is at most `MAX`. -/
def Admissible (s : String) : Prop :=
  s.length ≠ 0 ∧ (∀ c ∈ s.data, c = '0' ∨ c = '1') ∧ exactLimit s.length (ones s) ≤ 1000000

instance : DecidablePred Admissible := fun s => by
  unfold Admissible
  infer_instance

/-- The reachable set of a string with `n` characters, `k` of them `'1'`: the numbers
whose binary representation of length `n` has population count at most `k`. -/
def reachable (n k : Nat) : Finset Nat :=
  (Finset.range (2 ^ n)).filter fun x => popcount x ≤ k

/-- The counting loop of `countPrimeBinaryStrings` with the set `seen` removed: `cnt` is
incremented whenever `popcount(i) <= k` and `is_prime[i]`. The arguments after the fuel
are the current values of `i` and `cnt`. -/
def scanLoopNoSeen (is_prime : Array Bool) (k limit : Int) : Nat → Int → Int → Option Int
  | 0, _, _ => none
  | fuel + 1, i, cnt =>
    if i < limit then
      (if popcount32 i ≤ k then readAt is_prime i else some false).bind fun hit =>
        if hit then scanLoopNoSeen is_prime k limit fuel (wrap32 (i + 1)) (wrap32 (cnt + 1))
        else scanLoopNoSeen is_prime k limit fuel (wrap32 (i + 1)) cnt
    else some cnt

/-- The function `countPrimeBinaryStrings` with the set `seen` removed. -/
def countWithoutSeen (fuel : Nat) (is_prime : Array Bool) (s : String) : Option Int :=
  scanLoopNoSeen is_prime (onesOf s) (limitOf (lengthOf s) (onesOf s)) fuel 2 0

/-- The counting loop of `countPrimeBinaryStrings` in which a failing test
`!seen.count(i)` is a failure `none`, where the code skips the increment. -/
def scanLoopFresh (is_prime : Array Bool) (k limit : Int) : Nat → ScanState → Option ScanState
  | 0, _ => none
  | fuel + 1, st =>
    if st.i < limit then
      (if popcount32 st.i ≤ k then readAt is_prime st.i else some false).bind fun hit =>
        if hit then
          if st.i ∉ st.seen then
            scanLoopFresh is_prime k limit fuel
              ⟨wrap32 (st.i + 1), insert st.i st.seen, wrap32 (st.cnt + 1)⟩
          else none
        else
          scanLoopFresh is_prime k limit fuel ⟨wrap32 (st.i + 1), st.seen, st.cnt⟩
    else some st

/-- The set `seen` holds values from 2 up to, not including, the loop variable, and `cnt`
is its size. -/
def SeenBelow (st : ScanState) : Prop :=
  2 ≤ st.i ∧ (∀ x ∈ st.seen, 2 ≤ x ∧ x < st.i) ∧ st.cnt = st.seen.card

/-- The value `x` when it lies in the range of `int`, a failure `none` otherwise. -/
def checked32 (x : Int) : Option Int :=
  if -2147483648 ≤ x ∧ x < 2147483648 then some x else none

/-- The expression `a << b` on `int` without wrap-around: it fails unless `0 ≤ a`, the
shift count lies in `[0, 32)` and `a * 2^b` lies in the range of `int`. -/
def shlChecked (a b : Int) : Option Int :=
  if 0 ≤ a ∧ 0 ≤ b ∧ b < 32 then checked32 (a * 2 ^ b.toNat) else none

/-- The expression `((1 << k) - 1) << (n - k)` without wrap-around. -/
def limitChecked (n k : Int) : Option Int :=
  (shlChecked 1 k).bind fun p =>
  (checked32 (p - 1)).bind fun m =>
  (checked32 (n - k)).bind fun d =>
  shlChecked m d

/-- The inner loop of `precomputePrimes` without wrap-around: it fails when the stride `i`
is below 2 or when `j + i` leaves the range of `int`. -/
def clearMultiplesChecked (i : Int) : Nat → Int → Array Bool → Option (Array Bool)
  | 0, _, _ => none
  | fuel + 1, j, t =>
    if j ≤ MAX then
      (writeAt t j false).bind fun t1 =>
        if 2 ≤ i then
          (checked32 (j + i)).bind fun j1 => clearMultiplesChecked i fuel j1 t1
        else none
    else some t

/-- The outer loop of `precomputePrimes` without wrap-around: it fails when `i * i` or
`i + 1` leaves the range of `int`. -/
def sieveLoopChecked (inner : Nat) : Nat → Int → Array Bool → Option (Array Bool)
  | 0, _, _ => none
  | fuel + 1, i, t =>
    (checked32 (i * i)).bind fun sq =>
      if sq ≤ MAX then
        (readAt t i).bind fun b =>
          (if b then clearMultiplesChecked i inner sq t else some t).bind fun t1 =>
            (checked32 (i + 1)).bind fun i1 => sieveLoopChecked inner fuel i1 t1
      else some t

/-- The function `precomputePrimes` without wrap-around. -/
def precomputePrimesChecked (fuel : Nat) (is_prime : Array Bool) : Option (Array Bool) :=
  (checked32 (MAX + 1)).bind fun size =>
  (writeAt (assign is_prime size true) 1 false).bind fun t1 =>
  (writeAt t1 0 false).bind fun t2 =>
  sieveLoopChecked fuel fuel 2 t2

/-! ## Lemmas -/

theorem wrap32_of_range {x : Int} (h1 : -2147483648 ≤ x) (h2 : x < 2147483648) :
    wrap32 x = x := by
  unfold wrap32
  omega

theorem wrap32_natCast {n : Nat} (h : n < 2147483648) : wrap32 (n : Int) = n :=
  wrap32_of_range (by omega) (by omega)

theorem readAt_natCast (t : Array Bool) (n : Nat) : readAt t (n : Int) = t[n]? := by
  simp [readAt]

theorem writeAt_natCast (t : Array Bool) (n : Nat) (v : Bool) (h : n < t.size) :
    ∃ t1, writeAt t (n : Int) v = some t1 ∧ t1.size = t.size ∧
      ∀ m, t1[m]? = if n = m then some v else t[m]? := by
  have h' : (0 : Int) ≤ (n : Int) ∧ (n : Int).toNat < t.size := ⟨by omega, by simpa using h⟩
  refine ⟨t.set ⟨(n : Int).toNat, h'.2⟩ v, ?_, by simp, ?_⟩
  · simp [writeAt, h]
  · intro m
    rw [Array.get?_set]
    simp

theorem Marks.clear {t : Array Bool} {N : Nat} {P : Nat → Prop} (h : Marks t N P)
    {n : Nat} (hn : n ≤ N) :
    ∃ t1, writeAt t (n : Int) false = some t1 ∧ Marks t1 N (fun p => P p ∧ p ≠ n) := by
  obtain ⟨t1, h1, h2, h3⟩ := writeAt_natCast t n false (by rw [h.1]; omega)
  refine ⟨t1, h1, by rw [h2, h.1], ?_⟩
  intro p hp
  rw [h3]
  by_cases hpn : n = p
  · exact ⟨false, by simp [hpn], by simp [hpn]⟩
  · obtain ⟨b, hb1, hb2⟩ := h.2 p hp
    have hpn' : p ≠ n := fun e => hpn e.symm
    exact ⟨b, by simp [hpn, hb1], by simp [hpn', hb2]⟩

theorem Marks.congr {t : Array Bool} {N : Nat} {P Q : Nat → Prop} (h : Marks t N P)
    (hPQ : ∀ p, p ≤ N → (P p ↔ Q p)) : Marks t N Q := by
  refine ⟨h.1, fun p hp => ?_⟩
  obtain ⟨b, hb1, hb2⟩ := h.2 p hp
  exact ⟨b, hb1, hb2.trans (hPQ p hp)⟩

theorem Marks.unique {t t1 : Array Bool} {N : Nat} {P : Nat → Prop} (h : Marks t N P)
    (h1 : Marks t1 N P) : t = t1 := by
  apply Array.ext
  · rw [h.1, h1.1]
  · intro i hi hi1
    have hp : i ≤ N := by have := h.1; omega
    obtain ⟨b, hb1, hb2⟩ := h.2 i hp
    obtain ⟨c, hc1, hc2⟩ := h1.2 i hp
    rw [Array.getElem?_eq_getElem hi] at hb1
    rw [Array.getElem?_eq_getElem hi1] at hc1
    have hb : t[i] = b := by simpa using hb1
    have hc : t1[i] = c := by simpa using hc1
    rw [hb, hc]
    have : b = true ↔ c = true := hb2.trans hc2.symm
    cases b <;> cases c <;> simp_all

theorem Marks.read {t : Array Bool} {N : Nat} {P : Nat → Prop} (h : Marks t N P)
    {n : Nat} (hn : n ≤ N) : ∃ b, readAt t (n : Int) = some b ∧ (b = true ↔ P n) := by
  rw [readAt_natCast]
  exact h.2 n hn

theorem clearMultiples_spec (i : Nat) (hi : 1 ≤ i) (hiN : i ≤ 1000000) :
    ∀ (fuel j : Nat) (t : Array Bool) (P : Nat → Prop), 0 < fuel → 1000001 < j + fuel →
      j ≤ 2000000 → Marks t 1000000 P →
      ∃ t1, clearMultiples (i : Int) fuel (j : Int) t = some t1 ∧
        Marks t1 1000000 (fun p => P p ∧ ¬ ∃ m, p = j + m * i) := by
  intro fuel
  induction fuel with
  | zero => intro j t P h; omega
  | succ fuel ih =>
    intro j t P _ hf hj hM
    by_cases hjN : j ≤ 1000000
    · obtain ⟨t1, h1, hM1⟩ := hM.clear hjN
      have hw : wrap32 ((j : Int) + (i : Int)) = ((j + i : Nat) : Int) := by
        rw [← Nat.cast_add]
        exact wrap32_natCast (by omega)
      obtain ⟨t2, h2, hM2⟩ := ih (j + i) t1 _ (by omega) (by omega) (by omega) hM1
      refine ⟨t2, ?_, hM2.congr ?_⟩
      · have hc : (j : Int) ≤ MAX := by simp only [MAX]; omega
        simp only [clearMultiples, hc, if_true, h1, Option.bind, hw]
        exact h2
      · intro p _
        constructor
        · rintro ⟨⟨hP, hne⟩, hno⟩
          refine ⟨hP, ?_⟩
          rintro ⟨m, hm⟩
          rcases m with _ | m
          · exact hne (by simpa using hm)
          · exact hno ⟨m, by rw [hm]; ring⟩
        · rintro ⟨hP, hno⟩
          refine ⟨⟨hP, ?_⟩, ?_⟩
          · intro h
            exact hno ⟨0, by simp [h]⟩
          · rintro ⟨m, hm⟩
            exact hno ⟨m + 1, by rw [hm]; ring⟩
    · refine ⟨t, ?_, hM.congr ?_⟩
      · have hc : ¬ (j : Int) ≤ MAX := by simp only [MAX]; omega
        simp only [clearMultiples, hc, if_false]
      · intro p hp
        constructor
        · intro hP
          refine ⟨hP, ?_⟩
          rintro ⟨m, hm⟩
          have : j ≤ j + m * i := Nat.le_add_right _ _
          omega
        · exact fun h => h.1

theorem noDivBelow_succ (i p : Nat) :
    NoDivBelow (i + 1) p ↔ NoDivBelow i p ∧ ¬ (i * i ≤ p ∧ i ∣ p) ∨
      (NoDivBelow i p ∧ i < 2) := by
  unfold NoDivBelow
  constructor
  · rintro ⟨h2, h⟩
    by_cases hi : i < 2
    · exact Or.inr ⟨⟨h2, fun d hd hdi => h d hd (by omega)⟩, hi⟩
    · refine Or.inl ⟨⟨h2, fun d hd hdi => h d hd (by omega)⟩, ?_⟩
      rintro ⟨h3, h4⟩
      exact h i (by omega) (by omega) h3 h4
  · rintro (⟨⟨h2, h⟩, h3⟩ | ⟨⟨h2, h⟩, h3⟩)
    · refine ⟨h2, fun d hd hdi hdd hdp => ?_⟩
      by_cases hdi' : d < i
      · exact h d hd hdi' hdd hdp
      · have : d = i := by omega
        subst this
        exact h3 ⟨hdd, hdp⟩
    · exact ⟨h2, fun d hd hdi hdd hdp => by omega⟩

theorem exists_stride_iff (i p : Nat) (hi : 1 ≤ i) :
    (∃ m, p = i * i + m * i) ↔ i * i ≤ p ∧ i ∣ p := by
  constructor
  · rintro ⟨m, rfl⟩
    exact ⟨Nat.le_add_right _ _, Dvd.intro (i + m) (by ring)⟩
  · rintro ⟨h1, c, rfl⟩
    have hc : i ≤ c := Nat.le_of_mul_le_mul_left h1 (by omega)
    exact ⟨c - i, by
      have : c = i + (c - i) := by omega
      calc i * c = i * (i + (c - i)) := by rw [← this]
        _ = i * i + (c - i) * i := by ring⟩

theorem noDivBelow_succ_of_not (i p : Nat) (hi : 2 ≤ i) (h : ¬ NoDivBelow i i) :
    NoDivBelow i p ↔ NoDivBelow (i + 1) p := by
  rw [noDivBelow_succ]
  constructor
  · intro hp
    refine Or.inl ⟨hp, ?_⟩
    rintro ⟨h1, h2⟩
    apply h
    refine ⟨hi, fun d hd hdi hdd hdvd => ?_⟩
    have hii : i ≤ i * i := Nat.le_mul_self i
    exact hp.2 d hd hdi (by omega) (dvd_trans hdvd h2)
  · rintro (h1 | h1)
    · exact h1.1
    · exact h1.1

theorem sieveLoop_spec (inner : Nat) (hinner : 1000000 ≤ inner) :
    ∀ (fuel i : Nat) (t : Array Bool), 2 ≤ i → i ≤ 1001 → 1001 < i + fuel →
      Marks t 1000000 (NoDivBelow i) →
      ∃ t1, sieveLoop inner fuel (i : Int) t = some t1 ∧
        Marks t1 1000000 (NoDivBelow 1001) := by
  intro fuel
  induction fuel with
  | zero => intro i t h1 h2 h3; omega
  | succ fuel ih =>
    intro i t hi2 hi hf hM
    have hsq : (i : Int) * (i : Int) = ((i * i : Nat) : Int) := by push_cast; ring
    by_cases hlast : i = 1001
    · subst hlast
      refine ⟨t, ?_, hM⟩
      simp [sieveLoop, MAX, wrap32]
    · have hi' : i ≤ 1000 := by omega
      have hii : i * i ≤ 1000000 := by
        calc i * i ≤ 1000 * 1000 := Nat.mul_le_mul hi' hi'
          _ = 1000000 := by norm_num
      have hw : wrap32 ((i : Int) * (i : Int)) = ((i * i : Nat) : Int) := by
        rw [hsq]
        exact wrap32_natCast (by omega)
      have hw1 : wrap32 ((i : Int) + 1) = ((i + 1 : Nat) : Int) := by
        rw [← Nat.cast_one, ← Nat.cast_add]
        exact wrap32_natCast (by omega)
      have hc : ((i * i : Nat) : Int) ≤ MAX := by simp only [MAX]; omega
      obtain ⟨b, hb1, hb2⟩ := hM.read (show i ≤ 1000000 by omega)
      have key : ∃ t1, (if b = true then clearMultiples (i : Int) inner ((i * i : Nat) : Int) t
            else some t) = some t1 ∧ Marks t1 1000000 (NoDivBelow (i + 1)) := by
        cases b with
        | true =>
          have h4 : 4 ≤ i * i := by
            calc 4 = 2 * 2 := by norm_num
              _ ≤ i * i := Nat.mul_le_mul hi2 hi2
          obtain ⟨t1, h1, hM1⟩ := clearMultiples_spec i (by omega) (by omega) inner (i * i) t _
            (by omega) (by omega) (by omega) hM
          refine ⟨t1, by simpa using h1, hM1.congr ?_⟩
          intro p _
          rw [noDivBelow_succ, exists_stride_iff i p (by omega)]
          constructor
          · exact fun h => Or.inl h
          · rintro (h | h)
            · exact h
            · omega
        | false =>
          refine ⟨t, by simp, hM.congr ?_⟩
          intro p _
          exact noDivBelow_succ_of_not i p hi2 (by simpa using hb2)
      obtain ⟨t1, h1, hM1⟩ := key
      obtain ⟨t2, h2, hM2⟩ := ih (i + 1) t1 (by omega) (by omega) (by omega) hM1
      refine ⟨t2, ?_, hM2⟩
      simp only [sieveLoop, hw, hc, if_true, hb1, Option.bind, h1, hw1]
      exact h2

theorem wrap32_max_succ : (wrap32 (MAX + 1)).toNat = 1000001 := by
  have : wrap32 (MAX + 1) = 1000001 := by
    unfold wrap32 MAX
    omega
  omega

theorem marks_assign (t0 : Array Bool) :
    Marks (assign t0 (wrap32 (MAX + 1)) true) 1000000 (fun _ => True) := by
  refine ⟨?_, fun p hp => ⟨true, ?_, by simp⟩⟩
  · rw [assign, wrap32_max_succ, Array.size_mkArray]
  · rw [assign, wrap32_max_succ, Array.getElem?_mkArray]
    simp
    omega

theorem noDivBelow_last (p : Nat) (hp : p ≤ 1000000) :
    NoDivBelow 1001 p ↔ 2 ≤ p ∧ ∀ d, 2 ≤ d → d * d ≤ p → ¬ d ∣ p := by
  unfold NoDivBelow
  constructor
  · rintro ⟨h2, h⟩
    refine ⟨h2, fun d hd hdd => h d hd ?_ hdd⟩
    by_contra hge
    have : 1001 * 1001 ≤ d * d := Nat.mul_le_mul (by omega) (by omega)
    omega
  · rintro ⟨h2, h⟩
    exact ⟨h2, fun d hd _ hdd => h d hd hdd⟩

theorem prime_iff_no_small_divisor (p : Nat) :
    Nat.Prime p ↔ 2 ≤ p ∧ ∀ d, 2 ≤ d → d * d ≤ p → ¬ d ∣ p := by
  rw [Nat.prime_def_le_sqrt]
  constructor
  · rintro ⟨h2, h⟩
    exact ⟨h2, fun d hd hdd => h d hd (Nat.le_sqrt.mpr hdd)⟩
  · rintro ⟨h2, h⟩
    exact ⟨h2, fun d hd hdd => h d hd (Nat.le_sqrt.mp hdd)⟩

theorem marks_clear_one (t0 : Array Bool) :
    ∃ t1, writeAt (assign t0 (wrap32 (MAX + 1)) true) 1 false = some t1 ∧
      Marks t1 1000000 (fun p => True ∧ p ≠ 1) := by
  obtain ⟨t1, h1, hM1⟩ := (marks_assign t0).clear (show 1 ≤ 1000000 by omega)
  rw [Nat.cast_one] at h1
  exact ⟨t1, h1, hM1⟩

theorem noDivBelow_two (p : Nat) : ((True ∧ p ≠ 1) ∧ p ≠ 0) ↔ NoDivBelow 2 p := by
  unfold NoDivBelow
  constructor
  · rintro ⟨⟨_, h1⟩, h0⟩
    exact ⟨by omega, fun d hd hd2 => by omega⟩
  · rintro ⟨h2, _⟩
    exact ⟨⟨trivial, by omega⟩, by omega⟩

theorem marks_initial (t0 : Array Bool) :
    ∃ t1 t2, writeAt (assign t0 (wrap32 (MAX + 1)) true) 1 false = some t1 ∧
      writeAt t1 0 false = some t2 ∧ Marks t2 1000000 (NoDivBelow 2) := by
  obtain ⟨t1, h1, hM1⟩ := marks_clear_one t0
  obtain ⟨t2, h2, hM2⟩ := hM1.clear (Nat.zero_le 1000000)
  rw [Nat.cast_zero] at h2
  have hM3 : Marks t2 1000000 (NoDivBelow 2) := Marks.congr hM2 (fun p _ => noDivBelow_two p)
  exact ⟨t1, t2, h1, h2, hM3⟩

/-- With fuel at least `MAX`, `precomputePrimes` ends, and entry `p` of the table it leaves
is true exactly for the primes `p ≤ MAX`, whatever the table held before. -/
theorem precomputePrimes_spec (fuel : Nat) (hf : 1000000 ≤ fuel) (t0 : Array Bool) :
    ∃ t, precomputePrimes fuel t0 = some t ∧ Marks t 1000000 Nat.Prime := by
  obtain ⟨t1, t2, h1, h2, hM2⟩ := marks_initial t0
  obtain ⟨t3, h3, hM3⟩ := sieveLoop_spec fuel hf fuel 2 t2 (by omega) (by omega) (by omega) hM2
  refine ⟨t3, ?_, hM3.congr ?_⟩
  · unfold precomputePrimes
    rw [h1, Option.some_bind, h2, Option.some_bind]
    exact h3
  · intro p hp
    rw [noDivBelow_last p hp, prime_iff_no_small_divisor]

theorem popcountBits_eq (w : Nat) : ∀ x, x < 2 ^ w → popcountBits w x = popcount x := by
  induction w with
  | zero =>
    intro x hx
    have : x = 0 := by simpa using hx
    subst this
    simp [popcountBits, popcount]
  | succ w ih =>
    intro x hx
    rcases Nat.eq_zero_or_pos x with h0 | hpos
    · subst h0
      have := ih 0 (by positivity)
      simp [popcountBits, popcount] at this ⊢
      exact this
    · have hx2 : x / 2 < 2 ^ w := by
        rw [Nat.div_lt_iff_lt_mul (by norm_num)]
        rw [pow_succ] at hx
        exact hx
      unfold popcount at ih ⊢
      rw [popcountBits, ih _ hx2, Nat.digits_def' (by norm_num) hpos, List.sum_cons]

theorem popcount32_natCast (i : Nat) (h : i < 4294967296) :
    popcount32 (i : Int) = (popcount i : Int) := by
  have h1 : ((i : Int) % 4294967296).toNat = i := by omega
  rw [popcount32, h1, popcountBits_eq 32 i (by norm_num; exact h)]

theorem counted_succ (k : Int) (i : Nat) :
    counted k (i + 1) =
      if 2 ≤ i ∧ (popcount i : Int) ≤ k ∧ Nat.Prime i then insert i (counted k i)
      else counted k i := by
  unfold counted
  rw [Finset.range_succ, Finset.filter_insert]

theorem not_mem_counted (k : Int) (i : Nat) : i ∉ counted k i := by
  simp [counted]

theorem card_counted_le (k : Int) (i : Nat) : (counted k i).card ≤ i := by
  calc (counted k i).card ≤ (Finset.range i).card := Finset.card_filter_le _ _
    _ = i := Finset.card_range i

theorem scanLoop_spec (t : Array Bool) (hM : Marks t 1000000 Nat.Prime) (k : Int)
    (limit : Nat) (hl : limit ≤ 1000001) :
    ∀ (fuel i : Nat), 2 ≤ i → i ≤ limit → limit < i + fuel →
      scanLoop t k (limit : Int) fuel (scanStateAt k i) = some (scanStateAt k limit) := by
  intro fuel
  induction fuel with
  | zero => intro i h1 h2 h3; omega
  | succ fuel ih =>
    intro i hi2 hil hf
    by_cases hlast : i = limit
    · subst hlast
      simp [scanLoop, scanStateAt]
    · have hlt : ((scanStateAt k i).i) < (limit : Int) := by
        simp only [scanStateAt]; omega
      have hw1 : wrap32 ((i : Int) + 1) = ((i + 1 : Nat) : Int) := by
        rw [← Nat.cast_one, ← Nat.cast_add]
        exact wrap32_natCast (by omega)
      obtain ⟨b, hb1, hb2⟩ := hM.read (show i ≤ 1000000 by omega)
      have hpc := popcount32_natCast i (by omega)
      have hnext := ih (i + 1) (by omega) (by omega) (by omega)
      have hcard := card_counted_le k i
      have hwc : wrap32 (((counted k i).card : Int) + 1) = (((counted k i).card + 1 : Nat) : Int) := by
        rw [← Nat.cast_one, ← Nat.cast_add]
        exact wrap32_natCast (by omega)
      have hnot : (i : Int) ∉ (counted k i).image (fun x : Nat => (x : Int)) := by
        simp [not_mem_counted]
      rw [scanLoop, if_pos hlt]
      by_cases hadm : (popcount i : Int) ≤ k ∧ Nat.Prime i
      · have hb : b = true := hb2.mpr hadm.2
        subst hb
        have hs : scanStateAt k (i + 1) = ⟨((i + 1 : Nat) : Int),
            insert (i : Int) ((counted k i).image (fun x : Nat => (x : Int))),
            (((counted k i).card + 1 : Nat) : Int)⟩ := by
          simp only [scanStateAt, counted_succ, hi2, hadm, and_self, if_true,
            Finset.image_insert, Finset.card_insert_of_not_mem (not_mem_counted k i)]
        rw [hs] at hnext
        simp only [scanStateAt] at hnext ⊢
        simp only [hpc, hadm.1, if_true, hb1, Option.bind, if_pos hnot, hw1, hwc]
        exact hnext
      · have hs : scanStateAt k (i + 1) = ⟨((i + 1 : Nat) : Int),
            (counted k i).image (fun x : Nat => (x : Int)), ((counted k i).card : Int)⟩ := by
          simp only [scanStateAt, counted_succ, hi2, hadm, and_false, if_false]
        rw [hs] at hnext
        simp only [scanStateAt] at hnext ⊢
        by_cases hp : (popcount i : Int) ≤ k
        · have hb : b = false := by
            cases b with
            | false => rfl
            | true => exact absurd ⟨hp, hb2.mp rfl⟩ hadm
          subst hb
          simp only [hpc, hp, if_true, hb1, Option.bind, hw1]
          exact hnext
        · simp only [hpc, hp, if_false, Option.bind, hw1]
          exact hnext

theorem ones_le_length (s : String) : ones s ≤ s.length := List.count_le_length _ _

theorem two_pow_pred_le_exactLimit (n k : Nat) (hk : 1 ≤ k) (hkn : k ≤ n) :
    2 ^ (n - 1) ≤ exactLimit n k := by
  unfold exactLimit
  have h1 : 2 ^ (k - 1) ≤ 2 ^ k - 1 := by
    have : 2 ^ k = 2 ^ (k - 1) * 2 := by
      rw [← pow_succ]
      congr 1
      omega
    have hpos : 0 < 2 ^ (k - 1) := by positivity
    omega
  calc 2 ^ (n - 1) = 2 ^ (k - 1) * 2 ^ (n - k) := by
        rw [← pow_add]
        congr 1
        omega
    _ ≤ (2 ^ k - 1) * 2 ^ (n - k) := Nat.mul_le_mul_right _ h1

/-- A limit of at most `MAX` with at least one `'1'` forces a length of at most 20. -/
theorem length_le_of_exactLimit_le (n k : Nat) (hk : 1 ≤ k) (hkn : k ≤ n)
    (h : exactLimit n k ≤ 1000000) : n ≤ 20 := by
  by_contra hn
  have h1 := two_pow_pred_le_exactLimit n k hk hkn
  have h2 : 2 ^ 20 ≤ 2 ^ (n - 1) := Nat.pow_le_pow_right (by norm_num) (by omega)
  norm_num at h2
  omega

theorem shl32_zero (b : Int) : shl32 0 b = 0 := by
  simp [shl32, wrap32]

/-- On admissible sizes the `int` computation of `k` and `limit` is exact. -/
theorem limitOf_exact (n k : Nat) (hkn : k ≤ n) (h : exactLimit n k ≤ 1000000) :
    wrap32 (k : Int) = k ∧ limitOf (wrap32 (n : Int)) (wrap32 (k : Int)) = exactLimit n k := by
  rcases Nat.eq_zero_or_pos k with h0 | hpos
  · subst h0
    refine ⟨by simp [wrap32], ?_⟩
    have h1 : wrap32 ((0 : Nat) : Int) = 0 := by simp [wrap32]
    have h2 : shl32 1 0 = 1 := by simp [shl32, wrap32]
    have h3 : wrap32 (1 - 1) = 0 := by simp [wrap32]
    rw [limitOf, h1, h2, h3, shl32_zero]
    simp [exactLimit]
  · have hn : n ≤ 20 := length_le_of_exactLimit_le n k hpos hkn h
    have hk : wrap32 (k : Int) = k := wrap32_natCast (by omega)
    have hn' : wrap32 (n : Int) = n := wrap32_natCast (by omega)
    have hpk : 2 ^ k ≤ 2 ^ 20 := Nat.pow_le_pow_right (by norm_num) (by omega)
    have hpk1 : 1 ≤ 2 ^ k := Nat.one_le_two_pow
    norm_num at hpk
    have h1 : shl32 1 (k : Int) = ((2 ^ k : Nat) : Int) := by
      rw [shl32, Int.toNat_ofNat, one_mul]
      have := wrap32_natCast (n := 2 ^ k) (by omega)
      simpa using this
    have h2 : wrap32 (((2 ^ k : Nat) : Int) - 1) = ((2 ^ k - 1 : Nat) : Int) := by
      rw [wrap32_of_range (by omega) (by omega)]
      omega
    have h3 : wrap32 ((n : Int) - (k : Int)) = ((n - k : Nat) : Int) := by
      rw [wrap32_of_range (by omega) (by omega)]
      omega
    refine ⟨hk, ?_⟩
    rw [limitOf, hk, hn', h1, h2, h3, shl32, Int.toNat_ofNat]
    have h4 : ((2 ^ k - 1 : Nat) : Int) * 2 ^ (n - k) = ((exactLimit n k : Nat) : Int) := by
      unfold exactLimit
      push_cast
      rfl
    rw [h4]
    exact wrap32_natCast (by omega)

theorem counted_eq_empty (k : Int) (limit : Nat) (h : limit ≤ 2) : counted k limit = ∅ := by
  unfold counted
  rw [Finset.filter_eq_empty_iff]
  intro x hx
  rw [Finset.mem_range] at hx
  omega

theorem counted_natCast (k limit : Nat) :
    counted (k : Int) limit =
      (Finset.range limit).filter fun i => 2 ≤ i ∧ popcount i ≤ k ∧ Nat.Prime i := by
  unfold counted
  apply Finset.filter_congr
  intro x _
  rw [Nat.cast_le]

/-- The counting loop of `countPrimeBinaryStrings` on a table that marks the primes up to
`MAX`: it ends, `seen` holds the counted numbers below the limit, `cnt` their number. -/
theorem scanOf_spec (s : String) (h : exactLimit s.length (ones s) ≤ 1000000) (fuel : Nat)
    (hf : 1000000 ≤ fuel) (t : Array Bool) (hM : Marks t 1000000 Nat.Prime) :
    onesOf s = ones s ∧
    limitOf (lengthOf s) (onesOf s) = exactLimit s.length (ones s) ∧
    scanOf fuel t s = some ⟨max 2 (exactLimit s.length (ones s) : Int),
      (counted (ones s) (exactLimit s.length (ones s))).image (fun x : Nat => (x : Int)),
      ((counted (ones s) (exactLimit s.length (ones s))).card : Int)⟩ := by
  obtain ⟨hk, hlim⟩ := limitOf_exact s.length (ones s) (ones_le_length s) h
  have hk' : onesOf s = ones s := hk
  have hlim' : limitOf (lengthOf s) (onesOf s) = exactLimit s.length (ones s) := hlim
  refine ⟨hk', hlim', ?_⟩
  rw [scanOf, hlim', hk']
  by_cases h2 : 2 ≤ exactLimit s.length (ones s)
  · have := scanLoop_spec t hM (ones s) (exactLimit s.length (ones s)) (by omega) fuel 2
      (le_refl 2) h2 (by omega)
    have h0 : scanStateAt (ones s) 2 = ⟨2, ∅, 0⟩ := by
      simp [scanStateAt, counted_eq_empty]
    rw [h0] at this
    have hmax : max 2 (exactLimit s.length (ones s) : Int) = (exactLimit s.length (ones s) : Int) :=
      max_eq_right (by omega)
    rw [this, scanStateAt, hmax]
  · have hlt : ¬ ((2 : Int) < (exactLimit s.length (ones s) : Int)) := by omega
    obtain ⟨f, rfl⟩ : ∃ f, fuel = f + 1 := ⟨fuel - 1, by omega⟩
    have hmax : max 2 (exactLimit s.length (ones s) : Int) = 2 := max_eq_left (by omega)
    rw [scanLoop, if_neg hlt, counted_eq_empty _ _ (by omega), hmax]
    rfl

/-- The result of `countPrimeBinaryStrings` on a table that marks the primes up to `MAX`. -/
theorem count_spec (s : String) (h : exactLimit s.length (ones s) ≤ 1000000) (fuel : Nat)
    (hf : 1000000 ≤ fuel) (t : Array Bool) (hM : Marks t 1000000 Nat.Prime) :
    countPrimeBinaryStrings fuel t s =
      some ((counted (ones s) (exactLimit s.length (ones s))).card : Int) := by
  rw [countPrimeBinaryStrings, (scanOf_spec s h fuel hf t hM).2.2]
  rfl

theorem counted_3_7 : counted 3 7 = {2, 3, 5} := by
  unfold counted
  ext x
  simp only [Finset.mem_filter, Finset.mem_range, Finset.mem_insert, Finset.mem_singleton]
  constructor
  · rintro ⟨hx, h2, hp, hprime⟩
    interval_cases x <;> norm_num at hprime ⊢
  · rintro (rfl | rfl | rfl) <;> norm_num [popcount]

theorem counted_1_4 : counted 1 4 = {2} := by
  unfold counted
  ext x
  simp only [Finset.mem_filter, Finset.mem_range, Finset.mem_insert, Finset.mem_singleton]
  constructor
  · rintro ⟨hx, h2, hp, hprime⟩
    interval_cases x <;> norm_num [popcount] at hp hprime ⊢
  · rintro rfl
    norm_num [popcount]

theorem counted_2_24 : counted 2 24 = {2, 3, 5, 17} := by
  unfold counted
  ext x
  simp only [Finset.mem_filter, Finset.mem_range, Finset.mem_insert, Finset.mem_singleton]
  constructor
  · rintro ⟨hx, h2, hp, hprime⟩
    interval_cases x <;> norm_num [popcount] at hp hprime ⊢
  · rintro (rfl | rfl | rfl | rfl) <;> norm_num [popcount]

theorem counted_4_15 : counted 4 15 = {2, 3, 5, 7, 11, 13} := by
  unfold counted
  ext x
  simp only [Finset.mem_filter, Finset.mem_range, Finset.mem_insert, Finset.mem_singleton]
  constructor
  · rintro ⟨hx, h2, hp, hprime⟩
    interval_cases x <;> norm_num [popcount] at hp hprime ⊢
  · rintro (rfl | rfl | rfl | rfl | rfl | rfl) <;> norm_num [popcount]

theorem reachable_primes_3_3 : (reachable 3 3).filter Nat.Prime = {2, 3, 5, 7} := by
  unfold reachable
  ext x
  simp only [Finset.mem_filter, Finset.mem_range, Finset.mem_insert, Finset.mem_singleton]
  constructor
  · rintro ⟨⟨hx, hp⟩, hprime⟩
    norm_num at hx
    interval_cases x <;> norm_num at hprime ⊢
  · rintro (rfl | rfl | rfl | rfl) <;> norm_num [popcount]

theorem admissible_111 : Admissible "111" := by decide
theorem admissible_100 : Admissible "100" := by decide
theorem admissible_01010 : Admissible "01010" := by decide
theorem admissible_10100 : Admissible "10100" := by decide
theorem admissible_1111 : Admissible "1111" := by decide

/-- The result of `countPrimeBinaryStrings` for a string of known length and number of
ones. -/
theorem count_of_sizes (s : String) (n k : Nat) (hn : s.length = n) (hk : ones s = k)
    (h : exactLimit n k ≤ 1000000) (fuel : Nat) (hf : 1000000 ≤ fuel) (t : Array Bool)
    (hM : Marks t 1000000 Nat.Prime) :
    countPrimeBinaryStrings fuel t s = some ((counted k (exactLimit n k)).card : Int) := by
  subst hn hk
  exact count_spec s h fuel hf t hM

theorem admissible_10101 : Admissible "10101" := by decide

theorem counted_mono {k k1 : Int} {l l1 : Nat} (hk : k ≤ k1) (hl : l ≤ l1) :
    counted k l ⊆ counted k1 l1 := by
  intro x hx
  unfold counted at hx ⊢
  rw [Finset.mem_filter, Finset.mem_range] at hx ⊢
  exact ⟨by omega, hx.2.1, by omega, hx.2.2.2⟩

theorem exactLimit_zero_ones (n : Nat) : exactLimit n 0 = 0 := by
  simp [exactLimit]

theorem exactLimit_le_one (n k : Nat) (hk : k ≤ n) (hn : n ≤ 1) : exactLimit n k ≤ 1 := by
  interval_cases n <;> interval_cases k <;> decide

theorem exactLimit_succ_ones (n k : Nat) (hk : k + 1 ≤ n) :
    exactLimit n k ≤ exactLimit n (k + 1) := by
  unfold exactLimit
  have h1 : n - k = (n - (k + 1)) + 1 := by omega
  have h2 : (2 ^ k - 1) * 2 ≤ 2 ^ (k + 1) - 1 := by
    have : 2 ^ (k + 1) = 2 ^ k * 2 := pow_succ 2 k
    have hpos : 0 < 2 ^ k := by positivity
    omega
  calc (2 ^ k - 1) * 2 ^ (n - k) = ((2 ^ k - 1) * 2) * 2 ^ (n - (k + 1)) := by
        rw [h1, pow_succ]
        ring
    _ ≤ (2 ^ (k + 1) - 1) * 2 ^ (n - (k + 1)) := Nat.mul_le_mul_right _ h2

theorem popcountBits_zero (w : Nat) : popcountBits w 0 = 0 := by
  induction w with
  | zero => rfl
  | succ w ih => simp [popcountBits, ih]

theorem popcountBits_le (w : Nat) : ∀ n x, x < 2 ^ n → popcountBits w x ≤ n := by
  induction w with
  | zero => intro n x _; simp [popcountBits]
  | succ w ih =>
    intro n x hx
    rcases n with _ | n
    · have : x = 0 := by simpa using hx
      subst this
      simp [popcountBits_zero]
    · have hx2 : x / 2 < 2 ^ n := by
        rw [Nat.div_lt_iff_lt_mul (by norm_num)]
        rw [pow_succ] at hx
        exact hx
      have := ih n (x / 2) hx2
      rw [popcountBits]
      omega

theorem popcount_le_of_lt_two_pow (n x : Nat) (hx : x < 2 ^ n) : popcount x ≤ n := by
  rw [← popcountBits_eq x x (Nat.lt_two_pow x)]
  exact popcountBits_le x n x hx

theorem admissible_0 : Admissible "0" := by decide

theorem card_counted_le_primeCounting (k : Int) (l : Nat) :
    (counted k l).card ≤ Nat.primeCounting (l - 1) := by
  have h1 : counted k l ⊆ (Finset.range l).filter Nat.Prime := by
    intro x hx
    unfold counted at hx
    rw [Finset.mem_filter] at hx ⊢
    exact ⟨hx.1, hx.2.2.2⟩
  have h2 : ((Finset.range l).filter Nat.Prime).card = Nat.count Nat.Prime l :=
    (Nat.count_eq_card_filter_range Nat.Prime l).symm
  have h3 : Nat.count Nat.Prime l ≤ Nat.primeCounting (l - 1) := by
    unfold Nat.primeCounting Nat.primeCounting'
    exact Nat.count_monotone _ (by omega)
  calc (counted k l).card ≤ ((Finset.range l).filter Nat.Prime).card := Finset.card_le_card h1
    _ = Nat.count Nat.Prime l := h2
    _ ≤ Nat.primeCounting (l - 1) := h3

theorem counted_all_ones (n : Nat) :
    counted (n : Int) (2 ^ n - 1) = (Finset.range (2 ^ n - 1)).filter Nat.Prime := by
  unfold counted
  apply Finset.filter_congr
  intro x hx
  rw [Finset.mem_range] at hx
  constructor
  · exact fun h => h.2.2
  · intro h
    refine ⟨h.two_le, ?_, h⟩
    exact_mod_cast popcount_le_of_lt_two_pow n x (by omega)

theorem exactLimit_all_ones (n : Nat) : exactLimit n n = 2 ^ n - 1 := by
  simp [exactLimit]

theorem popcount_zero : popcount 0 = 0 := by simp [popcount]

theorem popcount_bit (y b : Nat) (hb : b < 2) : popcount (2 * y + b) = popcount y + b := by
  unfold popcount
  rcases Nat.eq_zero_or_pos (2 * y + b) with h0 | hpos
  · have hy : y = 0 := by omega
    have hb0 : b = 0 := by omega
    subst hy hb0
    simp
  · rw [Nat.digits_def' (by norm_num) hpos, List.sum_cons]
    have h1 : (2 * y + b) % 2 = b := by omega
    have h2 : (2 * y + b) / 2 = y := by omega
    rw [h1, h2, add_comm]

theorem popcount_double (y : Nat) : popcount (2 * y) = popcount y := by
  have := popcount_bit y 0 (by norm_num)
  simpa using this

theorem popcount_eq_zero {x : Nat} (h : popcount x = 0) : x = 0 := by
  induction x using Nat.strong_induction_on with
  | _ x ih =>
    rcases Nat.eq_zero_or_pos x with h0 | hpos
    · exact h0
    · have hx : x = 2 * (x / 2) + x % 2 := by omega
      rw [hx, popcount_bit _ _ (Nat.mod_lt _ (by norm_num))] at h
      have hy := ih (x / 2) (by omega) (by omega)
      omega

theorem popcount_mul_two_pow (m j : Nat) : popcount (m * 2 ^ j) = popcount m := by
  induction j with
  | zero => simp
  | succ j ih =>
    have : m * 2 ^ (j + 1) = 2 * (m * 2 ^ j) := by rw [pow_succ]; ring
    rw [this, popcount_double, ih]

theorem popcount_two_pow_sub_one (k : Nat) : popcount (2 ^ k - 1) = k := by
  induction k with
  | zero => simp [popcount]
  | succ k ih =>
    have hpos : 0 < 2 ^ k := by positivity
    have : 2 ^ (k + 1) - 1 = 2 * (2 ^ k - 1) + 1 := by rw [pow_succ]; omega
    rw [this, popcount_bit _ 1 (by norm_num), ih]

theorem popcount_exactLimit (n k : Nat) : popcount (exactLimit n k) = k := by
  rw [exactLimit, popcount_mul_two_pow, popcount_two_pow_sub_one]

theorem exactLimit_add (n k : Nat) (hk : k ≤ n) : exactLimit n k + 2 ^ (n - k) = 2 ^ n := by
  unfold exactLimit
  have hpos : 0 < 2 ^ k := by positivity
  have h : 2 ^ n = 2 ^ k * 2 ^ (n - k) := by
    rw [← pow_add]
    congr 1
    omega
  rw [h, Nat.sub_mul, one_mul]
  have : 2 ^ (n - k) ≤ 2 ^ k * 2 ^ (n - k) := Nat.le_mul_of_pos_left _ hpos
  omega

theorem exactLimit_lt (n k : Nat) (hk : k ≤ n) : exactLimit n k < 2 ^ n := by
  have := exactLimit_add n k hk
  have hpos : 0 < 2 ^ (n - k) := by positivity
  omega

/-- A number below `2^n` with at most `k ≤ n` one bits is at most `2^n - 2^(n-k)`. -/
theorem add_two_pow_le_of_popcount_le :
    ∀ (n k x : Nat), k ≤ n → x < 2 ^ n → popcount x ≤ k → x + 2 ^ (n - k) ≤ 2 ^ n := by
  intro n
  induction n with
  | zero =>
    intro k x hk hx _
    have hk0 : k = 0 := by omega
    subst hk0
    simpa using hx
  | succ n ih =>
    intro k x hk hx hp
    rcases Nat.eq_or_lt_of_le hk with hkn | hkn
    · subst hkn
      simp
      omega
    · have hk' : k ≤ n := by omega
      have hx2 : x / 2 < 2 ^ n := by
        rw [Nat.div_lt_iff_lt_mul (by norm_num)]
        rw [pow_succ] at hx
        exact hx
      have hxd : x = 2 * (x / 2) + x % 2 := by omega
      have hpc : popcount x = popcount (x / 2) + x % 2 := by
        conv_lhs => rw [hxd]
        exact popcount_bit _ _ (Nat.mod_lt _ (by norm_num))
      have he : n + 1 - k = (n - k) + 1 := by omega
      rw [he, pow_succ, pow_succ]
      rcases Nat.mod_two_eq_zero_or_one x with h0 | h1
      · have := ih k (x / 2) hk' hx2 (by omega)
        omega
      · have hk1 : 1 ≤ k := by omega
        have := ih (k - 1) (x / 2) (by omega) hx2 (by omega)
        have he2 : n - (k - 1) = (n - k) + 1 := by omega
        rw [he2, pow_succ] at this
        have hpos : 0 < 2 ^ (n - k) := by positivity
        omega

theorem le_exactLimit_of_popcount_le (n k x : Nat) (hk : k ≤ n) (hx : x < 2 ^ n)
    (hp : popcount x ≤ k) : x ≤ exactLimit n k := by
  have h1 := add_two_pow_le_of_popcount_le n k x hk hx hp
  have h2 := exactLimit_add n k hk
  omega

theorem counted_3_28 : counted 3 28 = {2, 3, 5, 7, 11, 13, 17, 19} := by
  unfold counted
  ext x
  simp only [Finset.mem_filter, Finset.mem_range, Finset.mem_insert, Finset.mem_singleton]
  constructor
  · rintro ⟨hx, h2, hp, hprime⟩
    interval_cases x <;> norm_num [popcount] at hp hprime ⊢
  · rintro (rfl | rfl | rfl | rfl | rfl | rfl | rfl | rfl) <;> norm_num [popcount]

/-- The `int` computation of `limit` is exact for lengths up to 30. -/
theorem limitOf_exact_of_le (n k : Nat) (hkn : k ≤ n) (hn : n ≤ 30) :
    limitOf (n : Int) (k : Int) = exactLimit n k := by
  have hpk : 2 ^ k ≤ 2 ^ 30 := Nat.pow_le_pow_right (by norm_num) (by omega)
  have hpn : 2 ^ n ≤ 2 ^ 30 := Nat.pow_le_pow_right (by norm_num) hn
  have hpk1 : 1 ≤ 2 ^ k := Nat.one_le_two_pow
  have hlt := exactLimit_lt n k hkn
  norm_num at hpk hpn
  have h1 : shl32 1 (k : Int) = ((2 ^ k : Nat) : Int) := by
    rw [shl32, Int.toNat_ofNat, one_mul]
    have := wrap32_natCast (n := 2 ^ k) (by omega)
    simpa using this
  have h2 : wrap32 (((2 ^ k : Nat) : Int) - 1) = ((2 ^ k - 1 : Nat) : Int) := by
    rw [wrap32_of_range (by omega) (by omega)]
    omega
  have h3 : wrap32 ((n : Int) - (k : Int)) = ((n - k : Nat) : Int) := by
    rw [wrap32_of_range (by omega) (by omega)]
    omega
  rw [limitOf, h1, h2, h3, shl32, Int.toNat_ofNat]
  have h4 : ((2 ^ k - 1 : Nat) : Int) * 2 ^ (n - k) = ((exactLimit n k : Nat) : Int) := by
    unfold exactLimit
    push_cast
    rfl
  rw [h4]
  exact wrap32_natCast (by omega)

theorem limitOf_zero_ones (n : Int) : limitOf n 0 = 0 := by
  have h2 : shl32 1 0 = 1 := by simp [shl32, wrap32]
  have h3 : wrap32 (1 - 1) = 0 := by simp [wrap32]
  rw [limitOf, h2, h3, shl32_zero]

theorem wrap32_lt (x : Int) : wrap32 x < 2147483648 := by
  unfold wrap32
  omega

theorem wrap32_ge (x : Int) : -2147483648 ≤ wrap32 x := by
  unfold wrap32
  omega

theorem limitOf_lt (n k : Int) : limitOf n k < 2147483648 := wrap32_lt _

theorem SeenBelow.card_le {st : ScanState} (h : SeenBelow st) :
    (st.seen.card : Int) ≤ st.i - 2 := by
  have hsub : st.seen ⊆ Finset.Ico 2 st.i := by
    intro x hx
    rw [Finset.mem_Ico]
    exact h.2.1 x hx
  have := Finset.card_le_card hsub
  rw [Int.card_Ico] at this
  have h2 := h.1
  omega

theorem SeenBelow.not_mem {st : ScanState} (h : SeenBelow st) : st.i ∉ st.seen := by
  intro hmem
  have := (h.2.1 _ hmem).2
  omega

theorem SeenBelow.skip {st : ScanState} (h : SeenBelow st) (hi : st.i < 2147483647) :
    SeenBelow ⟨wrap32 (st.i + 1), st.seen, st.cnt⟩ := by
  have hw : wrap32 (st.i + 1) = st.i + 1 := wrap32_of_range (by have := h.1; omega) (by omega)
  refine ⟨?_, ?_, h.2.2⟩
  · simp only [hw]
    have := h.1
    omega
  · intro x hx
    simp only [hw]
    have := h.2.1 x hx
    omega

theorem SeenBelow.count {st : ScanState} (h : SeenBelow st) (hi : st.i < 2147483647) :
    SeenBelow ⟨wrap32 (st.i + 1), insert st.i st.seen, wrap32 (st.cnt + 1)⟩ := by
  have hw : wrap32 (st.i + 1) = st.i + 1 := wrap32_of_range (by have := h.1; omega) (by omega)
  have hc := h.card_le
  have hcnt := h.2.2
  have hwc : wrap32 (st.cnt + 1) = st.cnt + 1 :=
    wrap32_of_range (by omega) (by omega)
  refine ⟨?_, ?_, ?_⟩
  · simp only [hw]
    have := h.1
    omega
  · intro x hx
    simp only [hw]
    rw [Finset.mem_insert] at hx
    rcases hx with rfl | hx
    · have := h.1
      omega
    · have := h.2.1 x hx
      omega
  · simp only [hwc]
    rw [Finset.card_insert_of_not_mem h.not_mem, hcnt]
    push_cast
    rfl

theorem scanLoop_guard (t : Array Bool) (k limit : Int) (hl : limit < 2147483648) :
    ∀ (fuel : Nat) (st : ScanState), SeenBelow st →
      scanLoop t k limit fuel st = scanLoopFresh t k limit fuel st ∧
      (scanLoop t k limit fuel st).map (fun r => r.cnt) =
        scanLoopNoSeen t k limit fuel st.i st.cnt ∧
      ∀ r, scanLoop t k limit fuel st = some r → SeenBelow r := by
  intro fuel
  induction fuel with
  | zero =>
    intro st _
    simp [scanLoop, scanLoopFresh, scanLoopNoSeen]
  | succ fuel ih =>
    intro st hst
    by_cases hlt : st.i < limit
    · have hi : st.i < 2147483647 := by omega
      have ih1 := ih _ (hst.skip hi)
      have ih2 := ih _ (hst.count hi)
      rw [scanLoop, scanLoopFresh, scanLoopNoSeen, if_pos hlt, if_pos hlt, if_pos hlt]
      cases hr : (if popcount32 st.i ≤ k then readAt t st.i else some false) with
      | none => simp
      | some hit =>
        cases hit with
        | false =>
          simp only [Option.some_bind, Bool.false_eq_true, if_false]
          exact ih1
        | true =>
          simp only [Option.some_bind, if_true, if_pos hst.not_mem]
          exact ih2
    · rw [scanLoop, scanLoopFresh, scanLoopNoSeen, if_neg hlt, if_neg hlt, if_neg hlt]
      refine ⟨rfl, rfl, ?_⟩
      intro r hr
      rw [← Option.some.inj hr]
      exact hst

theorem seenBelow_initial : SeenBelow ⟨2, ∅, 0⟩ := by
  refine ⟨le_refl _, ?_, ?_⟩
  · intro x hx
    simp at hx
  · simp

theorem checked32_of_range {x : Int} (h1 : -2147483648 ≤ x) (h2 : x < 2147483648) :
    checked32 x = some x := by
  rw [checked32, if_pos ⟨h1, h2⟩]

theorem nonneg_of_writeAt {t t1 : Array Bool} {j : Int} {v : Bool}
    (h : writeAt t j v = some t1) : 0 ≤ j := by
  unfold writeAt at h
  split at h
  · rename_i hc
    exact hc.1
  · exact absurd h (by simp)

theorem clearMultiplesChecked_eq (i : Int) (hi : 2 ≤ i) (hiN : i ≤ 1000000) :
    ∀ (fuel : Nat) (j : Int) (t : Array Bool),
      clearMultiplesChecked i fuel j t = clearMultiples i fuel j t := by
  intro fuel
  induction fuel with
  | zero => intro j t; rfl
  | succ fuel ih =>
    intro j t
    rw [clearMultiplesChecked, clearMultiples]
    by_cases hj : j ≤ MAX
    · rw [if_pos hj, if_pos hj]
      cases hw : writeAt t j false with
      | none => rfl
      | some t1 =>
        have h0 := nonneg_of_writeAt hw
        have hj' : j ≤ 1000000 := hj
        rw [Option.some_bind, Option.some_bind, if_pos hi,
          checked32_of_range (by omega) (by omega), Option.some_bind,
          wrap32_of_range (by omega) (by omega)]
        exact ih _ _
    · rw [if_neg hj, if_neg hj]

theorem sieveLoopChecked_eq (inner : Nat) :
    ∀ (fuel : Nat) (i : Int) (t : Array Bool), 2 ≤ i → i ≤ 1001 →
      sieveLoopChecked inner fuel i t = sieveLoop inner fuel i t := by
  intro fuel
  induction fuel with
  | zero => intro i t _ _; rfl
  | succ fuel ih =>
    intro i t hi2 hi
    have hsq1 : 0 ≤ i * i := mul_self_nonneg i
    have hsq2 : i * i ≤ 1001 * 1001 := by nlinarith
    have hc : checked32 (i * i) = some (i * i) := checked32_of_range (by omega) (by omega)
    have hw : wrap32 (i * i) = i * i := wrap32_of_range (by omega) (by omega)
    rw [sieveLoopChecked, sieveLoop, hc, Option.some_bind, hw]
    by_cases hle : i * i ≤ MAX
    · have hle' : i * i ≤ 1000000 := hle
      have hi' : i ≤ 1000 := by
        by_contra hgt
        have : 1001 * 1001 ≤ i * i := by nlinarith
        omega
      rw [if_pos hle, if_pos hle]
      cases hr : readAt t i with
      | none => rfl
      | some b =>
        rw [Option.some_bind, Option.some_bind,
          clearMultiplesChecked_eq i hi2 (by omega) inner (i * i) t]
        cases hcm : (if b = true then clearMultiples i inner (i * i) t else some t) with
        | none => rfl
        | some t1 =>
          rw [Option.some_bind, Option.some_bind, checked32_of_range (by omega) (by omega),
            Option.some_bind, wrap32_of_range (by omega) (by omega)]
          exact ih _ _ (by omega) (by omega)
    · rw [if_neg hle, if_neg hle]

theorem precomputePrimesChecked_eq (fuel : Nat) (t0 : Array Bool) :
    precomputePrimesChecked fuel t0 = precomputePrimes fuel t0 := by
  have hc : checked32 (MAX + 1) = some (MAX + 1) := by
    unfold MAX
    exact checked32_of_range (by omega) (by omega)
  have hw : wrap32 (MAX + 1) = MAX + 1 := by
    unfold MAX
    exact wrap32_of_range (by omega) (by omega)
  unfold precomputePrimesChecked precomputePrimes
  rw [hc, Option.some_bind, hw]
  cases h1 : writeAt (assign t0 (MAX + 1) true) 1 false with
  | none => rfl
  | some t1 =>
    rw [Option.some_bind, Option.some_bind]
    cases h2 : writeAt t1 0 false with
    | none => rfl
    | some t2 =>
      rw [Option.some_bind, Option.some_bind]
      exact sieveLoopChecked_eq fuel fuel 2 t2 (by omega) (by omega)

theorem size_of_writeAt {t t1 : Array Bool} {j : Int} {v : Bool}
    (h : writeAt t j v = some t1) : t1.size = t.size ∧ 0 ≤ j ∧ j.toNat < t.size := by
  unfold writeAt at h
  split at h
  · rename_i hc
    rw [← Option.some.inj h]
    exact ⟨Array.size_set _ _ _, hc.1, hc.2⟩
  · exact absurd h (by simp)

theorem index_of_readAt {t : Array Bool} {j : Int} {b : Bool}
    (h : readAt t j = some b) : 0 ≤ j ∧ j.toNat < t.size := by
  unfold readAt at h
  split at h
  · rename_i hc
    obtain ⟨hlt, _⟩ := Array.getElem?_eq_some_iff.mp h
    exact ⟨hc, hlt⟩
  · exact absurd h (by simp)

theorem reachable_primes_eq (n k : Nat) (hk : k ≤ n) :
    (reachable n k).filter Nat.Prime =
      if Nat.Prime (exactLimit n k) then insert (exactLimit n k) (counted k (exactLimit n k))
      else counted k (exactLimit n k) := by
  have hlt := exactLimit_lt n k hk
  have hpc := popcount_exactLimit n k
  have hmem : ∀ x, x ∈ (reachable n k).filter Nat.Prime ↔
      x < 2 ^ n ∧ popcount x ≤ k ∧ Nat.Prime x := by
    intro x
    unfold reachable
    rw [Finset.mem_filter, Finset.mem_filter, Finset.mem_range]
    tauto
  have hcnt : ∀ x, x ∈ counted (k : Int) (exactLimit n k) ↔
      x < exactLimit n k ∧ popcount x ≤ k ∧ Nat.Prime x := by
    intro x
    rw [counted_natCast, Finset.mem_filter, Finset.mem_range]
    constructor
    · exact fun h => ⟨h.1, h.2.2⟩
    · exact fun h => ⟨h.1, h.2.2.two_le, h.2⟩
  ext x
  rw [hmem]
  split
  · rename_i hprime
    rw [Finset.mem_insert, hcnt]
    constructor
    · rintro ⟨hx, hp, hpr⟩
      have := le_exactLimit_of_popcount_le n k x hk hx hp
      rcases Nat.eq_or_lt_of_le this with h | h
      · exact Or.inl h
      · exact Or.inr ⟨h, hp, hpr⟩
    · rintro (rfl | ⟨hx, hp, hpr⟩)
      · exact ⟨hlt, le_of_eq hpc, hprime⟩
      · exact ⟨by omega, hp, hpr⟩
  · rename_i hprime
    rw [hcnt]
    constructor
    · rintro ⟨hx, hp, hpr⟩
      have := le_exactLimit_of_popcount_le n k x hk hx hp
      rcases Nat.eq_or_lt_of_le this with h | h
      · rw [h] at hpr
        exact absurd hpr hprime
      · exact ⟨h, hp, hpr⟩
    · rintro ⟨hx, hp, hpr⟩
      exact ⟨by omega, hp, hpr⟩

theorem card_reachable_primes (n k : Nat) (hk : k ≤ n) :
    ((reachable n k).filter Nat.Prime).card =
      (counted k (exactLimit n k)).card + if Nat.Prime (exactLimit n k) then 1 else 0 := by
  rw [reachable_primes_eq n k hk]
  split
  · rw [Finset.card_insert_of_not_mem (not_mem_counted _ _)]
  · rfl

theorem eq_two_of_prime_of_popcount_le_one {x : Nat} (hp : Nat.Prime x)
    (h : popcount x ≤ 1) : x = 2 := by
  have hx : x = 2 * (x / 2) + x % 2 := by omega
  have hpc : popcount x = popcount (x / 2) + x % 2 := by
    conv_lhs => rw [hx]
    exact popcount_bit _ _ (Nat.mod_lt _ (by norm_num))
  rcases Nat.mod_two_eq_zero_or_one x with h0 | h1
  · exact (Nat.Prime.even_iff hp).mp (Nat.even_iff.mpr h0)
  · have hz : x / 2 = 0 := popcount_eq_zero (by omega)
    have : x = 1 := by omega
    rw [this] at hp
    exact absurd hp Nat.not_prime_one

theorem counted_one (l : Nat) (hl : 3 ≤ l) : counted 1 l = {2} := by
  unfold counted
  ext x
  rw [Finset.mem_filter, Finset.mem_range, Finset.mem_singleton]
  constructor
  · rintro ⟨_, _, hp, hprime⟩
    exact eq_two_of_prime_of_popcount_le_one hprime (by exact_mod_cast hp)
  · rintro rfl
    refine ⟨by omega, le_refl _, ?_, Nat.prime_two⟩
    norm_num [popcount]

theorem exactLimit_one (n : Nat) : exactLimit n 1 = 2 ^ (n - 1) := by
  simp [exactLimit]

theorem exactLimit_succ_length (n k : Nat) (hk : k ≤ n) :
    exactLimit (n + 1) k = 2 * exactLimit n k := by
  unfold exactLimit
  have : n + 1 - k = (n - k) + 1 := by omega
  rw [this, pow_succ]
  ring

theorem limitChecked_exact (n k : Nat) (hkn : k ≤ n) (hn : n ≤ 30) :
    limitChecked (n : Int) (k : Int) = some (exactLimit n k : Int) := by
  have hpk : 2 ^ k ≤ 2 ^ 30 := Nat.pow_le_pow_right (by norm_num) (by omega)
  have hpn : 2 ^ n ≤ 2 ^ 30 := Nat.pow_le_pow_right (by norm_num) hn
  have hpk1 : 1 ≤ 2 ^ k := Nat.one_le_two_pow
  have hlt := exactLimit_lt n k hkn
  norm_num at hpk hpn
  have h1 : shlChecked 1 (k : Int) = some ((2 ^ k : Nat) : Int) := by
    rw [shlChecked, if_pos ⟨by omega, by omega, by omega⟩, Int.toNat_ofNat, one_mul]
    have := checked32_of_range (x := ((2 ^ k : Nat) : Int)) (by omega) (by omega)
    simpa using this
  have h2 : checked32 (((2 ^ k : Nat) : Int) - 1) = some ((2 ^ k - 1 : Nat) : Int) := by
    rw [checked32_of_range (by omega) (by omega)]
    congr 1
    omega
  have h3 : checked32 ((n : Int) - (k : Int)) = some ((n - k : Nat) : Int) := by
    rw [checked32_of_range (by omega) (by omega)]
    congr 1
    omega
  have h4 : ((2 ^ k - 1 : Nat) : Int) * 2 ^ (n - k) = ((exactLimit n k : Nat) : Int) := by
    unfold exactLimit
    push_cast
    rfl
  rw [limitChecked, h1, Option.some_bind, h2, Option.some_bind, h3, Option.some_bind,
    shlChecked, if_pos ⟨by omega, by omega, by omega⟩, Int.toNat_ofNat, h4]
  exact checked32_of_range (by omega) (by omega)

/-! ## The claims -/

/-- C1: for an admissible string `s` with `n` characters, `k` of them `'1'`, and the table
built by `precomputePrimes`, `countPrimeBinaryStrings s` is the number of integers `i` with
`2 ≤ i < limit`, population count at most `k`, that are prime, where
`limit = ((1 << k) - 1) << (n - k)`; the `int` values of `k` and `limit` in the code are
the exact ones. Both functions end when given fuel `MAX`. -/
theorem count_eq_card_primes_below_limit (s : String) (hs : Admissible s) (fuel : Nat)
    (hf : 1000000 ≤ fuel) (t0 : Array Bool) :
    ∃ t, precomputePrimes fuel t0 = some t ∧
      onesOf s = ones s ∧
      limitOf (lengthOf s) (onesOf s) = exactLimit s.length (ones s) ∧
      countPrimeBinaryStrings fuel t s =
        some (((Finset.range (exactLimit s.length (ones s))).filter
          fun i => 2 ≤ i ∧ popcount i ≤ ones s ∧ Nat.Prime i).card : Int) := by
  obtain ⟨t, ht, hM⟩ := precomputePrimes_spec fuel hf t0
  obtain ⟨hk, hlim, _⟩ := scanOf_spec s hs.2.2 fuel hf t hM
  refine ⟨t, ht, hk, hlim, ?_⟩
  rw [count_spec s hs.2.2 fuel hf t hM, counted_natCast]

theorem count_eq_card_primes_below_limit_witness :
    Admissible "10101" ∧ (1000000 : Nat) ≤ 1000000 ∧
    ∃ t, precomputePrimes 1000000 #[] = some t ∧
      onesOf "10101" = ones "10101" ∧
      limitOf (lengthOf "10101") (onesOf "10101") = exactLimit "10101".length (ones "10101") ∧
      countPrimeBinaryStrings 1000000 t "10101" =
        some (((Finset.range (exactLimit "10101".length (ones "10101"))).filter
          fun i => 2 ≤ i ∧ popcount i ≤ ones "10101" ∧ Nat.Prime i).card : Int) :=
  ⟨by decide, le_refl _,
    count_eq_card_primes_below_limit "10101" (by decide) 1000000 (le_refl _) #[]⟩

/-- C2: `precomputePrimes` (with fuel `MAX`, from any previous table) ends with a table of
exactly `MAX + 1` entries in which entries 0 and 1 are false and, for `2 ≤ p ≤ MAX`, entry
`p` is true if and only if `p` has no divisor `d` with `2 ≤ d` and `d * d ≤ p`, that is, if
and only if `p` is prime; otherwise the entry is false. -/
theorem precomputePrimes_table (fuel : Nat) (hf : 1000000 ≤ fuel) (t0 : Array Bool) :
    ∃ t, precomputePrimes fuel t0 = some t ∧ (t.size : Int) = MAX + 1 ∧
      t[0]? = some false ∧ t[1]? = some false ∧
      ∀ p : Nat, 2 ≤ p → (p : Int) ≤ MAX →
        (t[p]? = some true ↔ ∀ d, 2 ≤ d → d * d ≤ p → ¬ d ∣ p) ∧
        (t[p]? = some true ↔ Nat.Prime p) ∧
        (t[p]? = some false ↔ ¬ Nat.Prime p) := by
  obtain ⟨t, ht, hM⟩ := precomputePrimes_spec fuel hf t0
  have key : ∀ p : Nat, p ≤ 1000000 →
      (t[p]? = some true ↔ Nat.Prime p) ∧ (t[p]? = some false ↔ ¬ Nat.Prime p) := by
    intro p hp
    obtain ⟨b, hb1, hb2⟩ := hM.2 p hp
    rw [hb1]
    cases b with
    | true => simpa using hb2
    | false => simpa using hb2
  refine ⟨t, ht, ?_, ?_, ?_, ?_⟩
  · rw [hM.1]
    simp only [MAX]
    norm_num
  · exact (key 0 (by omega)).2.mpr (by norm_num)
  · exact (key 1 (by omega)).2.mpr (by norm_num)
  · intro p hp2 hpM
    have hp : p ≤ 1000000 := by
      simp only [MAX] at hpM
      omega
    refine ⟨?_, (key p hp).1, (key p hp).2⟩
    rw [(key p hp).1, prime_iff_no_small_divisor]
    constructor
    · exact fun h => h.2
    · exact fun h => ⟨hp2, h⟩

theorem precomputePrimes_table_witness :
    (1000000 : Nat) ≤ 1000000 ∧ ∃ t, precomputePrimes 1000000 #[] = some t ∧ (t.size : Int) = MAX + 1 ∧
      t[0]? = some false ∧ t[1]? = some false ∧
      ∀ p : Nat, 2 ≤ p → (p : Int) ≤ MAX →
        (t[p]? = some true ↔ ∀ d, 2 ≤ d → d * d ≤ p → ¬ d ∣ p) ∧
        (t[p]? = some true ↔ Nat.Prime p) ∧
        (t[p]? = some false ↔ ¬ Nat.Prime p) :=
  ⟨le_refl _, precomputePrimes_table 1000000 (le_refl _) #[]⟩

/-- C3: on the input `"111"` the code returns 3, although the reachable set of `"111"`
(the numbers below `2^3` with population count at most 3) holds the four primes
2, 3, 5, 7: the prime `7 = limit` is left out by the scan. -/
theorem count_111_misses_reachable_prime :
    ∃ t, precomputePrimes 1000000 #[] = some t ∧
      countPrimeBinaryStrings 1000000 t "111" = some 3 ∧
      ((reachable "111".length (ones "111")).filter Nat.Prime).card = 4 := by
  obtain ⟨t, ht, hM⟩ := precomputePrimes_spec 1000000 (le_refl _) #[]
  refine ⟨t, ht, ?_, ?_⟩
  · rw [count_of_sizes "111" 3 3 (by decide) (by decide) (by decide) 1000000 (le_refl _) t hM]
    have : exactLimit 3 3 = 7 := by decide
    rw [this, Nat.cast_ofNat, counted_3_7]
    rfl
  · have h1 : "111".length = 3 := by decide
    have h2 : ones "111" = 3 := by decide
    rw [h1, h2, reachable_primes_3_3]
    rfl

/-- C4, the claim as stated fails: `"100"` is admissible and has one `'1'`, but the code
returns 1 for it (the prime 2 lies in `[2, 4)` and has population count 1). -/
theorem zero_ones_fails_at_100 :
    Admissible "100" ∧ (ones "100" ≤ 1 ∨ "100".length ≤ 1) ∧
      ∃ t, precomputePrimes 1000000 #[] = some t ∧
        countPrimeBinaryStrings 1000000 t "100" = some 1 ∧
        countPrimeBinaryStrings 1000000 t "100" ≠ some 0 := by
  obtain ⟨t, ht, hM⟩ := precomputePrimes_spec 1000000 (le_refl _) #[]
  have hc : countPrimeBinaryStrings 1000000 t "100" = some 1 := by
    rw [count_of_sizes "100" 3 1 (by decide) (by decide) (by decide) 1000000 (le_refl _) t hM]
    have : exactLimit 3 1 = 4 := by decide
    rw [this, Nat.cast_one, counted_1_4]
    rfl
  refine ⟨admissible_100, Or.inl (by decide), t, ht, hc, ?_⟩
  rw [hc]
  decide

/-- C4, amended: for an admissible string with no `'1'` at all, or of length at most 1,
`countPrimeBinaryStrings` returns 0. -/
theorem zero_ones_amended (s : String) (hs : Admissible s)
    (h : ones s = 0 ∨ s.length ≤ 1) (fuel : Nat) (hf : 1000000 ≤ fuel) (t0 : Array Bool) :
    ∃ t, precomputePrimes fuel t0 = some t ∧ countPrimeBinaryStrings fuel t s = some 0 := by
  obtain ⟨t, ht, hM⟩ := precomputePrimes_spec fuel hf t0
  refine ⟨t, ht, ?_⟩
  have hl : exactLimit s.length (ones s) ≤ 2 := by
    rcases h with h | h
    · rw [h, exactLimit_zero_ones]
      omega
    · have := exactLimit_le_one s.length (ones s) (ones_le_length s) h
      omega
  rw [count_spec s hs.2.2 fuel hf t hM, counted_eq_empty _ _ hl]
  rfl

theorem zero_ones_amended_witness :
    Admissible "0" ∧ (ones "0" = 0 ∨ "0".length ≤ 1) ∧ (1000000 : Nat) ≤ 1000000 ∧
      ∃ t, precomputePrimes 1000000 #[] = some t ∧
        countPrimeBinaryStrings 1000000 t "0" = some 0 :=
  ⟨admissible_0, Or.inl (by decide), le_refl _,
    zero_ones_amended "0" admissible_0 (Or.inl (by decide)) 1000000 (le_refl _) #[]⟩

/-- C5: for a string `s` and a string `s'` that is a permutation of `s`, or more generally
has the same length and the same number of `'1'` characters, the code returns for `s'`
what it returns for `s`, an integer when `s` is admissible; `"01010"` and `"10100"` both
give 4. -/
theorem count_permutation_invariant (s s' : String)
    (h : s'.data.Perm s.data ∨ (s'.length = s.length ∧ ones s' = ones s))
    (fuel : Nat) (hf : 1000000 ≤ fuel) (t0 : Array Bool) :
    ∃ t, precomputePrimes fuel t0 = some t ∧
      countPrimeBinaryStrings fuel t s' = countPrimeBinaryStrings fuel t s ∧
      (Admissible s → ∃ c : Int, countPrimeBinaryStrings fuel t s = some c ∧
        countPrimeBinaryStrings fuel t s' = some c) ∧
      countPrimeBinaryStrings fuel t "01010" = some 4 ∧
      countPrimeBinaryStrings fuel t "10100" = some 4 := by
  obtain ⟨t, ht, hM⟩ := precomputePrimes_spec fuel hf t0
  have hsame : s'.length = s.length ∧ ones s' = ones s := by
    rcases h with h | h
    · exact ⟨h.length_eq, h.count_eq '1'⟩
    · exact h
  have heq : countPrimeBinaryStrings fuel t s' = countPrimeBinaryStrings fuel t s := by
    have h1 : lengthOf s' = lengthOf s := by rw [lengthOf, lengthOf, hsame.1]
    have h2 : onesOf s' = onesOf s := by
      have := hsame.2
      unfold ones at this
      rw [onesOf, onesOf, this]
    rw [countPrimeBinaryStrings, countPrimeBinaryStrings, scanOf, scanOf, h1, h2]
  have h24 : exactLimit 5 2 = 24 := by decide
  refine ⟨t, ht, heq, ?_, ?_, ?_⟩
  · intro hs
    exact ⟨_, count_spec s hs.2.2 fuel hf t hM, by rw [heq]; exact count_spec s hs.2.2 fuel hf t hM⟩
  · rw [count_of_sizes "01010" 5 2 (by decide) (by decide) (by decide) fuel hf t hM, h24,
      Nat.cast_ofNat, counted_2_24]
    rfl
  · rw [count_of_sizes "10100" 5 2 (by decide) (by decide) (by decide) fuel hf t hM, h24,
      Nat.cast_ofNat, counted_2_24]
    rfl

theorem count_permutation_invariant_witness :
    ("01010".data.Perm "10100".data ∨
        ("01010".length = "10100".length ∧ ones "01010" = ones "10100")) ∧
      (1000000 : Nat) ≤ 1000000 ∧
      ∃ t, precomputePrimes 1000000 #[] = some t ∧
        countPrimeBinaryStrings 1000000 t "01010" = countPrimeBinaryStrings 1000000 t "10100" ∧
        (Admissible "10100" → ∃ c : Int, countPrimeBinaryStrings 1000000 t "10100" = some c ∧
          countPrimeBinaryStrings 1000000 t "01010" = some c) ∧
        countPrimeBinaryStrings 1000000 t "01010" = some 4 ∧
        countPrimeBinaryStrings 1000000 t "10100" = some 4 :=
  ⟨Or.inl (by decide), le_refl _,
    count_permutation_invariant "10100" "01010" (Or.inl (by decide)) 1000000 (le_refl _) #[]⟩

/-- C6: for an admissible string `s` and the string `s'` that has a `'0'` where `s` has
one of its `'1'` characters and agrees with `s` elsewhere, the result for `s'` is at most
the result for `s`. -/
theorem count_monotone_zero (s s' : String) (hs : Admissible s) (a b : List Char)
    (h : s.data = a ++ '1' :: b) (h' : s'.data = a ++ '0' :: b)
    (fuel : Nat) (hf : 1000000 ≤ fuel) (t0 : Array Bool) :
    ∃ t c c', precomputePrimes fuel t0 = some t ∧
      countPrimeBinaryStrings fuel t s = some c ∧
      countPrimeBinaryStrings fuel t s' = some c' ∧ c' ≤ c := by
  obtain ⟨t, ht, hM⟩ := precomputePrimes_spec fuel hf t0
  have hlen : s'.length = s.length := by
    simp [String.length, h, h']
  have hones : ones s = ones s' + 1 := by
    simp [ones, h, h', List.count_cons]
    omega
  have hle := exactLimit_succ_ones s.length (ones s')
    (by have := ones_le_length s; omega)
  rw [← hones] at hle
  have hadm : exactLimit s'.length (ones s') ≤ 1000000 := by
    rw [hlen]
    exact le_trans hle hs.2.2
  refine ⟨t, _, _, ht, count_spec s hs.2.2 fuel hf t hM, count_spec s' hadm fuel hf t hM, ?_⟩
  rw [hlen]
  exact_mod_cast Finset.card_le_card
    (counted_mono (by rw [hones]; push_cast; omega) hle)

theorem count_monotone_zero_witness :
    Admissible "10100" ∧ "10100".data = ['1', '0'] ++ '1' :: ['0', '0'] ∧
      "10000".data = ['1', '0'] ++ '0' :: ['0', '0'] ∧ (1000000 : Nat) ≤ 1000000 ∧
      ∃ t c c', precomputePrimes 1000000 #[] = some t ∧
        countPrimeBinaryStrings 1000000 t "10100" = some c ∧
        countPrimeBinaryStrings 1000000 t "10000" = some c' ∧ c' ≤ c :=
  ⟨admissible_10100, by decide, by decide, le_refl _,
    count_monotone_zero "10100" "10000" admissible_10100 ['1', '0'] ['0', '0']
      (by decide) (by decide) 1000000 (le_refl _) #[]⟩

/-- C8: for an admissible string the result `c` of `countPrimeBinaryStrings` satisfies
`0 ≤ c ≤ π(limit - 1)`, with `π` the prime counting function (and `limit - 1` read as 0
when `limit = 0`). -/
theorem count_le_primeCounting (s : String) (hs : Admissible s) (fuel : Nat)
    (hf : 1000000 ≤ fuel) (t0 : Array Bool) :
    ∃ t c, precomputePrimes fuel t0 = some t ∧
      countPrimeBinaryStrings fuel t s = some c ∧ 0 ≤ c ∧
      c ≤ (Nat.primeCounting (exactLimit s.length (ones s) - 1) : Int) := by
  obtain ⟨t, ht, hM⟩ := precomputePrimes_spec fuel hf t0
  refine ⟨t, _, ht, count_spec s hs.2.2 fuel hf t hM, by positivity, ?_⟩
  exact_mod_cast card_counted_le_primeCounting _ _

theorem count_le_primeCounting_witness :
    Admissible "10101" ∧ (1000000 : Nat) ≤ 1000000 ∧
      ∃ t c, precomputePrimes 1000000 #[] = some t ∧
        countPrimeBinaryStrings 1000000 t "10101" = some c ∧ 0 ≤ c ∧
        c ≤ (Nat.primeCounting (exactLimit "10101".length (ones "10101") - 1) : Int) :=
  ⟨admissible_10101, le_refl _,
    count_le_primeCounting "10101" admissible_10101 1000000 (le_refl _) #[]⟩

/-- C7: for an admissible string the value `limit = ((1 << k) - 1) << (n - k)` is not among
the values counted by `countPrimeBinaryStrings` (the set `seen` when the scan has ended,
whose size is the result): every counted value is below `limit`. For `"111"` the limit 7
is prime with population count 3, and the counted values are 2, 3, 5, the result 3. -/
theorem limit_not_counted (s : String) (hs : Admissible s) (fuel : Nat)
    (hf : 1000000 ≤ fuel) (t0 : Array Bool) :
    ∃ t st, precomputePrimes fuel t0 = some t ∧ scanOf fuel t s = some st ∧
      countPrimeBinaryStrings fuel t s = some st.cnt ∧ st.cnt = st.seen.card ∧
      limitOf (lengthOf s) (onesOf s) ∉ st.seen ∧
      (∀ x ∈ st.seen, x < limitOf (lengthOf s) (onesOf s)) ∧
      (s = "111" → limitOf (lengthOf s) (onesOf s) = 7 ∧ Nat.Prime 7 ∧
        popcount 7 ≤ ones s ∧ st.seen = {2, 3, 5} ∧ st.cnt = 3) := by
  obtain ⟨t, ht, hM⟩ := precomputePrimes_spec fuel hf t0
  obtain ⟨hk, hlim, hscan⟩ := scanOf_spec s hs.2.2 fuel hf t hM
  have hbelow : ∀ x ∈ (counted (ones s) (exactLimit s.length (ones s))).image
      (fun x : Nat => (x : Int)), x < limitOf (lengthOf s) (onesOf s) := by
    intro x hx
    rw [Finset.mem_image] at hx
    obtain ⟨y, hy, rfl⟩ := hx
    unfold counted at hy
    rw [Finset.mem_filter, Finset.mem_range] at hy
    rw [hlim]
    exact_mod_cast hy.1
  refine ⟨t, _, ht, hscan, ?_, ?_, ?_, hbelow, ?_⟩
  · rw [countPrimeBinaryStrings, hscan]
    rfl
  · simp only
    rw [Finset.card_image_of_injective _ Nat.cast_injective]
  · intro hmem
    exact lt_irrefl _ (hbelow _ hmem)
  · rintro rfl
    have h1 : "111".length = 3 := by decide
    have h2 : ones "111" = 3 := by decide
    have h3 : exactLimit 3 3 = 7 := by decide
    rw [hlim]
    simp only [h1, h2, h3, Nat.cast_ofNat, counted_3_7]
    refine ⟨trivial, by norm_num, by norm_num [popcount], ?_, ?_⟩
    · decide
    · decide

theorem limit_not_counted_witness :
    Admissible "111" ∧ (1000000 : Nat) ≤ 1000000 ∧
    ∃ t st, precomputePrimes 1000000 #[] = some t ∧ scanOf 1000000 t "111" = some st ∧
      countPrimeBinaryStrings 1000000 t "111" = some st.cnt ∧ st.cnt = st.seen.card ∧
      limitOf (lengthOf "111") (onesOf "111") ∉ st.seen ∧
      (∀ x ∈ st.seen, x < limitOf (lengthOf "111") (onesOf "111")) ∧
      ("111" = "111" → limitOf (lengthOf "111") (onesOf "111") = 7 ∧ Nat.Prime 7 ∧
        popcount 7 ≤ ones "111" ∧ st.seen = {2, 3, 5} ∧ st.cnt = 3) :=
  ⟨admissible_111, le_refl _, limit_not_counted "111" admissible_111 1000000 (le_refl _) #[]⟩

/-- C9: for a string of `n` characters, all `'1'`, with `2^n - 1 ≤ MAX`, the result of
`countPrimeBinaryStrings` is the number of primes strictly below `2^n - 1`, every `i` below
`2^n - 1` having population count at most `n`; the result is 3 for `"111"` and 6 for
`"1111"`. -/
theorem count_all_ones (s : String) (n : Nat) (hs : s.data = List.replicate n '1')
    (hn : 2 ^ n - 1 ≤ 1000000) (fuel : Nat) (hf : 1000000 ≤ fuel) (t0 : Array Bool) :
    ∃ t, precomputePrimes fuel t0 = some t ∧
      countPrimeBinaryStrings fuel t s = some (Nat.primeCounting' (2 ^ n - 1) : Int) ∧
      (∀ i, i < 2 ^ n - 1 → popcount i ≤ ones s) ∧
      (s = "111" → countPrimeBinaryStrings fuel t s = some 3) ∧
      (s = "1111" → countPrimeBinaryStrings fuel t s = some 6) := by
  obtain ⟨t, ht, hM⟩ := precomputePrimes_spec fuel hf t0
  have hlen : s.length = n := by simp [String.length, hs]
  have hones : ones s = n := by simp [ones, hs]
  have hc : countPrimeBinaryStrings fuel t s = some (Nat.primeCounting' (2 ^ n - 1) : Int) := by
    rw [count_of_sizes s n n hlen hones (by rw [exactLimit_all_ones]; exact hn) fuel hf t hM,
      exactLimit_all_ones, counted_all_ones, Nat.primeCounting',
      Nat.count_eq_card_filter_range]
  refine ⟨t, ht, hc, ?_, ?_, ?_⟩
  · intro i hi
    rw [hones]
    exact popcount_le_of_lt_two_pow n i (by omega)
  · rintro rfl
    have h3 : n = 3 := by rw [← hlen]; decide
    subst h3
    rw [hc]
    decide
  · rintro rfl
    have h4 : n = 4 := by rw [← hlen]; decide
    subst h4
    rw [hc]
    decide

theorem count_all_ones_witness :
    "1111".data = List.replicate 4 '1' ∧ 2 ^ 4 - 1 ≤ 1000000 ∧ (1000000 : Nat) ≤ 1000000 ∧
    ∃ t, precomputePrimes 1000000 #[] = some t ∧
      countPrimeBinaryStrings 1000000 t "1111" = some (Nat.primeCounting' (2 ^ 4 - 1) : Int) ∧
      (∀ i, i < 2 ^ 4 - 1 → popcount i ≤ ones "1111") ∧
      ("1111" = "111" → countPrimeBinaryStrings 1000000 t "1111" = some 3) ∧
      ("1111" = "1111" → countPrimeBinaryStrings 1000000 t "1111" = some 6) :=
  ⟨by decide, by decide, le_refl _,
    count_all_ones "1111" 4 (by decide) (by decide) 1000000 (le_refl _) #[]⟩

/-- C10: a second call of `precomputePrimes`, on the table the first call built, yields
that same table again (as does a call on any other previous content), so the result of
`countPrimeBinaryStrings` is the same after it for every string. -/
theorem precomputePrimes_idempotent (fuel fuel' : Nat) (hf : 1000000 ≤ fuel)
    (hf' : 1000000 ≤ fuel') (t0 : Array Bool) :
    ∃ t, precomputePrimes fuel t0 = some t ∧ precomputePrimes fuel' t = some t ∧
      (∀ prior, precomputePrimes fuel' prior = some t) ∧
      ∀ t', precomputePrimes fuel' t = some t' → ∀ (s : String) (f : Nat),
        countPrimeBinaryStrings f t' s = countPrimeBinaryStrings f t s := by
  obtain ⟨t, ht, hM⟩ := precomputePrimes_spec fuel hf t0
  have hall : ∀ prior, precomputePrimes fuel' prior = some t := by
    intro prior
    obtain ⟨t1, ht1, hM1⟩ := precomputePrimes_spec fuel' hf' prior
    rw [ht1, hM1.unique hM]
  refine ⟨t, ht, hall t, hall, ?_⟩
  intro t' ht' s f
  rw [hall t] at ht'
  rw [← Option.some.inj ht']

theorem precomputePrimes_idempotent_witness :
    (1000000 : Nat) ≤ 1000000 ∧ (1000000 : Nat) ≤ 2000000 ∧
    ∃ t, precomputePrimes 1000000 #[] = some t ∧ precomputePrimes 2000000 t = some t ∧
      (∀ prior, precomputePrimes 2000000 prior = some t) ∧
      ∀ t', precomputePrimes 2000000 t = some t' → ∀ (s : String) (f : Nat),
        countPrimeBinaryStrings f t' s = countPrimeBinaryStrings f t s :=
  ⟨le_refl _, by decide, precomputePrimes_idempotent 1000000 2000000 (le_refl _) (by decide) #[]⟩

/-- C11: the example run of `main`: after `precomputePrimes()`,
`countPrimeBinaryStrings("10101")` is 8, with `n = 5`, `k = 3`, `limit = 28`, and the
counted values are exactly 2, 3, 5, 7, 11, 13, 17, 19; the prime 23 is below the limit but
has population count 4 and is not counted. -/
theorem example_run_10101 (fuel : Nat) (hf : 1000000 ≤ fuel) (t0 : Array Bool) :
    ∃ t st, precomputePrimes fuel t0 = some t ∧ scanOf fuel t "10101" = some st ∧
      countPrimeBinaryStrings fuel t "10101" = some 8 ∧
      lengthOf "10101" = 5 ∧ onesOf "10101" = 3 ∧
      limitOf (lengthOf "10101") (onesOf "10101") = 28 ∧
      st.seen = {2, 3, 5, 7, 11, 13, 17, 19} ∧ st.cnt = 8 ∧
      Nat.Prime 23 ∧ popcount32 23 = 4 ∧ popcount 23 = 4 ∧ (23 : Int) ∉ st.seen := by
  obtain ⟨t, ht, hM⟩ := precomputePrimes_spec fuel hf t0
  obtain ⟨_, _, hscan⟩ := scanOf_spec "10101" (by decide) fuel hf t hM
  have h1 : "10101".length = 5 := by decide
  have h2 : ones "10101" = 3 := by decide
  have h3 : exactLimit 5 3 = 28 := by decide
  simp only [h1, h2, h3, Nat.cast_ofNat, counted_3_28] at hscan
  refine ⟨t, _, ht, hscan, ?_, by decide, by decide, by decide, by decide, by decide,
    by norm_num, by decide, by norm_num [popcount], by decide⟩
  rw [countPrimeBinaryStrings, hscan]
  decide

theorem example_run_10101_witness :
    (1000000 : Nat) ≤ 1000000 ∧
    ∃ t st, precomputePrimes 1000000 #[] = some t ∧ scanOf 1000000 t "10101" = some st ∧
      countPrimeBinaryStrings 1000000 t "10101" = some 8 ∧
      lengthOf "10101" = 5 ∧ onesOf "10101" = 3 ∧
      limitOf (lengthOf "10101") (onesOf "10101") = 28 ∧
      st.seen = {2, 3, 5, 7, 11, 13, 17, 19} ∧ st.cnt = 8 ∧
      Nat.Prime 23 ∧ popcount32 23 = 4 ∧ popcount 23 = 4 ∧ (23 : Int) ∉ st.seen :=
  ⟨le_refl _, example_run_10101 1000000 (le_refl _) #[]⟩

/-- C12: for a string without any `'1'` (then `limit = 0`) or of length 1 (then `limit` is
0 or 1) no integer lies in the scan range `[2, limit)`, the table is never read, and
`countPrimeBinaryStrings` returns 0, whatever the table holds; so for `"0"` and `"1"`. -/
theorem count_zero_of_no_ones_or_length_one (s : String)
    (h : ones s = 0 ∨ s.length = 1) (fuel : Nat) (hf : 1 ≤ fuel) (t : Array Bool) :
    (ones s = 0 → limitOf (lengthOf s) (onesOf s) = 0) ∧
      (limitOf (lengthOf s) (onesOf s) = 0 ∨ limitOf (lengthOf s) (onesOf s) = 1) ∧
      (∀ i : Int, 2 ≤ i → ¬ i < limitOf (lengthOf s) (onesOf s)) ∧
      scanOf fuel t s = some ⟨2, ∅, 0⟩ ∧
      countPrimeBinaryStrings fuel t s = some 0 ∧
      countPrimeBinaryStrings fuel t "0" = some 0 ∧
      countPrimeBinaryStrings fuel t "1" = some 0 := by
  have hzero : ones s = 0 → limitOf (lengthOf s) (onesOf s) = 0 := by
    intro h0
    have : onesOf s = 0 := by
      have h0' : s.data.count '1' = 0 := h0
      rw [onesOf, h0']
      decide
    rw [this, limitOf_zero_ones]
  have hlim : limitOf (lengthOf s) (onesOf s) = 0 ∨ limitOf (lengthOf s) (onesOf s) = 1 := by
    rcases h with h | h
    · exact Or.inl (hzero h)
    · have hle := ones_le_length s
      rw [h] at hle
      have hlen : lengthOf s = 1 := by
        rw [lengthOf, h]
        decide
      rcases Nat.eq_zero_or_pos (ones s) with h0 | hpos
      · exact Or.inl (hzero h0)
      · have h1 : ones s = 1 := by omega
        have h1' : s.data.count '1' = 1 := h1
        have : onesOf s = 1 := by
          rw [onesOf, h1']
          decide
        rw [hlen, this]
        exact Or.inr (by decide)
  have hstop : ∀ (u : Array Bool) (k l : Int), l ≤ 1 →
      scanLoop u k l fuel ⟨2, ∅, 0⟩ = some ⟨2, ∅, 0⟩ := by
    intro u k l hl
    obtain ⟨f, rfl⟩ : ∃ f, fuel = f + 1 := ⟨fuel - 1, by omega⟩
    have hlt : ¬ ((2 : Int) < l) := by omega
    rw [scanLoop, if_neg hlt]
  have hcount : ∀ (u : Array Bool) (r : String), limitOf (lengthOf r) (onesOf r) ≤ 1 →
      countPrimeBinaryStrings fuel u r = some 0 := by
    intro u r hr
    rw [countPrimeBinaryStrings, scanOf, hstop u _ _ hr]
    rfl
  have hle : limitOf (lengthOf s) (onesOf s) ≤ 1 := by
    rcases hlim with h | h <;> omega
  refine ⟨hzero, hlim, fun i hi hlt => by omega, ?_, hcount t s hle,
    hcount t "0" (by decide), hcount t "1" (by decide)⟩
  rw [scanOf, hstop t _ _ hle]

theorem count_zero_of_no_ones_or_length_one_witness :
    (ones "000" = 0 ∨ "000".length = 1) ∧ 1 ≤ 1 ∧
    ((ones "000" = 0 → limitOf (lengthOf "000") (onesOf "000") = 0) ∧
      (limitOf (lengthOf "000") (onesOf "000") = 0 ∨
        limitOf (lengthOf "000") (onesOf "000") = 1) ∧
      (∀ i : Int, 2 ≤ i → ¬ i < limitOf (lengthOf "000") (onesOf "000")) ∧
      scanOf 1 #[] "000" = some ⟨2, ∅, 0⟩ ∧
      countPrimeBinaryStrings 1 #[] "000" = some 0 ∧
      countPrimeBinaryStrings 1 #[] "0" = some 0 ∧
      countPrimeBinaryStrings 1 #[] "1" = some 0) :=
  ⟨Or.inl (by decide), le_refl _,
    count_zero_of_no_ones_or_length_one "000" (Or.inl (by decide)) 1 (le_refl _) #[]⟩

/-- C13: for `0 ≤ k ≤ n` the value `limit = ((1 << k) - 1) << (n - k)` is the greatest
element of the reachable set: it is below `2^n`, has population count `k` (so it is
reachable), and every `x < 2^n` with population count at most `k` is at most `limit`.
The `int` value computed by the code is this value for `n ≤ 30`, and on every string whose
limit is at most `MAX`. -/
theorem limit_is_greatest_reachable (n k : Nat) (hk : k ≤ n) :
    exactLimit n k < 2 ^ n ∧ popcount (exactLimit n k) = k ∧
      exactLimit n k ∈ reachable n k ∧
      (∀ x, x < 2 ^ n → popcount x ≤ k → x ≤ exactLimit n k) ∧
      (∀ x ∈ reachable n k, x ≤ exactLimit n k) ∧
      (n ≤ 30 → limitOf (n : Int) (k : Int) = exactLimit n k) ∧
      (∀ s : String, s.length = n → ones s = k → exactLimit n k ≤ 1000000 →
        limitOf (lengthOf s) (onesOf s) = exactLimit n k) := by
  have hlt := exactLimit_lt n k hk
  have hpc := popcount_exactLimit n k
  refine ⟨hlt, hpc, ?_, fun x hx hp => le_exactLimit_of_popcount_le n k x hk hx hp, ?_,
    fun hn => limitOf_exact_of_le n k hk hn, ?_⟩
  · unfold reachable
    rw [Finset.mem_filter, Finset.mem_range]
    exact ⟨hlt, le_of_eq hpc⟩
  · intro x hx
    unfold reachable at hx
    rw [Finset.mem_filter, Finset.mem_range] at hx
    exact le_exactLimit_of_popcount_le n k x hk hx.1 hx.2
  · rintro s rfl rfl h
    exact (limitOf_exact s.length (ones s) (ones_le_length s) h).2

theorem limit_is_greatest_reachable_witness :
    3 ≤ 5 ∧
    (exactLimit 5 3 < 2 ^ 5 ∧ popcount (exactLimit 5 3) = 3 ∧
      exactLimit 5 3 ∈ reachable 5 3 ∧
      (∀ x, x < 2 ^ 5 → popcount x ≤ 3 → x ≤ exactLimit 5 3) ∧
      (∀ x ∈ reachable 5 3, x ≤ exactLimit 5 3) ∧
      (5 ≤ 30 → limitOf ((5 : Nat) : Int) ((3 : Nat) : Int) = exactLimit 5 3) ∧
      (∀ s : String, s.length = 5 → ones s = 3 → exactLimit 5 3 ≤ 1000000 →
        limitOf (lengthOf s) (onesOf s) = exactLimit 5 3)) :=
  ⟨by decide, limit_is_greatest_reachable 5 3 (by decide)⟩

/-- C14: the test `!seen.count(i)` never fails: the scan gives the same final state when a
failing test is made a failure, because `seen` only holds values below the current `i`.
So for every table, string and fuel the result equals that of the loop with the set `seen`
removed, and when the scan has ended `seen` has exactly `cnt` elements. -/
theorem seen_guard_redundant (fuel : Nat) (t : Array Bool) (s : String) :
    scanOf fuel t s =
        scanLoopFresh t (onesOf s) (limitOf (lengthOf s) (onesOf s)) fuel ⟨2, ∅, 0⟩ ∧
      countPrimeBinaryStrings fuel t s = countWithoutSeen fuel t s ∧
      ∀ st, scanOf fuel t s = some st →
        (st.seen.card : Int) = st.cnt ∧ ∀ x ∈ st.seen, x < st.i := by
  obtain ⟨h1, h2, h3⟩ := scanLoop_guard t (onesOf s) (limitOf (lengthOf s) (onesOf s))
    (limitOf_lt _ _) fuel ⟨2, ∅, 0⟩ seenBelow_initial
  refine ⟨h1, h2, ?_⟩
  intro st hst
  have := h3 st hst
  exact ⟨this.2.2.symm, fun x hx => (this.2.1 x hx).2⟩

/-- C15: for an admissible string and the table built by `precomputePrimes`, every index
`i` at which `countPrimeBinaryStrings` can read the table (`2 ≤ i < limit`) satisfies
`0 ≤ i ≤ MAX` and lies inside the table, so that no read fails, and the function ends with
one integer result. -/
theorem lookups_in_range (s : String) (hs : Admissible s) (fuel : Nat)
    (hf : 1000000 ≤ fuel) (t0 : Array Bool) :
    ∃ t c, precomputePrimes fuel t0 = some t ∧
      countPrimeBinaryStrings fuel t s = some c ∧
      (∀ r, countPrimeBinaryStrings fuel t s = some r → r = c) ∧
      ∀ i : Int, 2 ≤ i → i < limitOf (lengthOf s) (onesOf s) →
        0 ≤ i ∧ i ≤ MAX ∧ i.toNat < t.size ∧ ∃ b, readAt t i = some b := by
  obtain ⟨t, ht, hM⟩ := precomputePrimes_spec fuel hf t0
  obtain ⟨_, hlim, _⟩ := scanOf_spec s hs.2.2 fuel hf t hM
  have hc := count_spec s hs.2.2 fuel hf t hM
  refine ⟨t, _, ht, hc, ?_, ?_⟩
  · intro r hr
    rw [hc] at hr
    exact (Option.some.inj hr).symm
  · intro i hi2 hil
    rw [hlim] at hil
    have hle := hs.2.2
    have hi : i = ((i.toNat : Nat) : Int) := by omega
    have hiN : i.toNat ≤ 1000000 := by omega
    obtain ⟨b, hb, _⟩ := hM.read hiN
    rw [← hi] at hb
    refine ⟨by omega, by unfold MAX; omega, by rw [hM.1]; omega, b, hb⟩

theorem lookups_in_range_witness :
    Admissible "10101" ∧ (1000000 : Nat) ≤ 1000000 ∧
    ∃ t c, precomputePrimes 1000000 #[] = some t ∧
      countPrimeBinaryStrings 1000000 t "10101" = some c ∧
      (∀ r, countPrimeBinaryStrings 1000000 t "10101" = some r → r = c) ∧
      ∀ i : Int, 2 ≤ i → i < limitOf (lengthOf "10101") (onesOf "10101") →
        0 ≤ i ∧ i ≤ MAX ∧ i.toNat < t.size ∧ ∃ b, readAt t i = some b :=
  ⟨by decide, le_refl _, lookups_in_range "10101" (by decide) 1000000 (le_refl _) #[]⟩

/-- C16: `precomputePrimes` ends without failure when given fuel `MAX`: also when an
index outside the table, a stride of the inner loop below 2, or a value of `i * i`,
`j + i` or `i + 1` outside the range of `int` is made a failure, the run ends with the
same table of `MAX + 1` entries. A read or write can only succeed at an index from 0 to
the size of the table less one, and a write leaves the size unchanged. -/
theorem precomputePrimes_safe (fuel : Nat) (hf : 1000000 ≤ fuel) (t0 : Array Bool) :
    ∃ t, precomputePrimes fuel t0 = some t ∧ precomputePrimesChecked fuel t0 = some t ∧
      (t.size : Int) = MAX + 1 ∧
      (∀ (u u1 : Array Bool) (j : Int) (v : Bool), writeAt u j v = some u1 →
        u1.size = u.size ∧ 0 ≤ j ∧ j.toNat < u.size) ∧
      (∀ (u : Array Bool) (j : Int) (b : Bool), readAt u j = some b →
        0 ≤ j ∧ j.toNat < u.size) := by
  obtain ⟨t, ht, hM⟩ := precomputePrimes_spec fuel hf t0
  refine ⟨t, ht, ?_, ?_, fun u u1 j v h => size_of_writeAt h, fun u j b h => index_of_readAt h⟩
  · rw [precomputePrimesChecked_eq, ht]
  · rw [hM.1]
    unfold MAX
    norm_num

theorem precomputePrimes_safe_witness :
    (1000000 : Nat) ≤ 1000000 ∧
    ∃ t, precomputePrimes 1000000 #[] = some t ∧
      precomputePrimesChecked 1000000 #[] = some t ∧
      (t.size : Int) = MAX + 1 ∧
      (∀ (u u1 : Array Bool) (j : Int) (v : Bool), writeAt u j v = some u1 →
        u1.size = u.size ∧ 0 ≤ j ∧ j.toNat < u.size) ∧
      (∀ (u : Array Bool) (j : Int) (b : Bool), readAt u j = some b →
        0 ≤ j ∧ j.toNat < u.size) :=
  ⟨le_refl _, precomputePrimes_safe 1000000 (le_refl _) #[]⟩

/-- C17: for an admissible string with `n` characters, `k` of them `'1'`, the number of
primes in the reachable set (primes below `2^n` with population count at most `k`) is the
result of `countPrimeBinaryStrings` plus 1 if `limit` is prime, and the result itself
otherwise: every counted value is a reachable prime, and a reachable prime that is not
counted is `limit`. -/
theorem reachable_primes_eq_count_plus_limit (s : String) (hs : Admissible s) (fuel : Nat)
    (hf : 1000000 ≤ fuel) (t0 : Array Bool) :
    ∃ t st, precomputePrimes fuel t0 = some t ∧ scanOf fuel t s = some st ∧
      countPrimeBinaryStrings fuel t s = some st.cnt ∧
      (((reachable s.length (ones s)).filter Nat.Prime).card : Int) =
        st.cnt + (if Nat.Prime (exactLimit s.length (ones s)) then 1 else 0) ∧
      (∀ x ∈ st.seen, ∃ p ∈ reachable s.length (ones s), Nat.Prime p ∧ (p : Int) = x) ∧
      (∀ p ∈ reachable s.length (ones s), Nat.Prime p → (p : Int) ∉ st.seen →
        p = exactLimit s.length (ones s)) := by
  obtain ⟨t, ht, hM⟩ := precomputePrimes_spec fuel hf t0
  obtain ⟨_, _, hscan⟩ := scanOf_spec s hs.2.2 fuel hf t hM
  have hk := ones_le_length s
  have heq := reachable_primes_eq s.length (ones s) hk
  have hsub : ∀ y ∈ counted (ones s) (exactLimit s.length (ones s)),
      y ∈ (reachable s.length (ones s)).filter Nat.Prime := by
    intro y hy
    rw [heq]
    split
    · exact Finset.mem_insert_of_mem hy
    · exact hy
  refine ⟨t, _, ht, hscan, ?_, ?_, ?_, ?_⟩
  · rw [countPrimeBinaryStrings, hscan]
    rfl
  · rw [card_reachable_primes _ _ hk]
    split <;> simp
  · intro x hx
    simp only [Finset.mem_image] at hx
    obtain ⟨y, hy, rfl⟩ := hx
    have := hsub y hy
    rw [Finset.mem_filter] at this
    exact ⟨y, this.1, this.2, rfl⟩
  · intro p hp hprime hnot
    have hmem : p ∈ (reachable s.length (ones s)).filter Nat.Prime :=
      Finset.mem_filter.mpr ⟨hp, hprime⟩
    rw [heq] at hmem
    have hnc : p ∉ counted (ones s) (exactLimit s.length (ones s)) := by
      intro hc
      exact hnot (Finset.mem_image.mpr ⟨p, hc, rfl⟩)
    split at hmem
    · rcases Finset.mem_insert.mp hmem with h | h
      · exact h
      · exact absurd h hnc
    · exact absurd hmem hnc

theorem reachable_primes_eq_count_plus_limit_witness :
    Admissible "111" ∧ (1000000 : Nat) ≤ 1000000 ∧
    ∃ t st, precomputePrimes 1000000 #[] = some t ∧ scanOf 1000000 t "111" = some st ∧
      countPrimeBinaryStrings 1000000 t "111" = some st.cnt ∧
      (((reachable "111".length (ones "111")).filter Nat.Prime).card : Int) =
        st.cnt + (if Nat.Prime (exactLimit "111".length (ones "111")) then 1 else 0) ∧
      (∀ x ∈ st.seen, ∃ p ∈ reachable "111".length (ones "111"),
        Nat.Prime p ∧ (p : Int) = x) ∧
      (∀ p ∈ reachable "111".length (ones "111"), Nat.Prime p → (p : Int) ∉ st.seen →
        p = exactLimit "111".length (ones "111")) :=
  ⟨by decide, le_refl _,
    reachable_primes_eq_count_plus_limit "111" (by decide) 1000000 (le_refl _) #[]⟩

/-- C18: for a string with exactly one `'1'` and length `n` with `3 ≤ n ≤ 20`,
`countPrimeBinaryStrings` returns 1: `limit = 2^(n-1) ≥ 4`, and the only counted value
is 2. -/
theorem count_single_one (s : String) (hk : ones s = 1) (h3 : 3 ≤ s.length)
    (h20 : s.length ≤ 20) (fuel : Nat) (hf : 1000000 ≤ fuel) (t0 : Array Bool) :
    ∃ t st, precomputePrimes fuel t0 = some t ∧ scanOf fuel t s = some st ∧
      countPrimeBinaryStrings fuel t s = some 1 ∧
      limitOf (lengthOf s) (onesOf s) = 2 ^ (s.length - 1) ∧
      4 ≤ limitOf (lengthOf s) (onesOf s) ∧ st.seen = {2} ∧ st.cnt = 1 := by
  obtain ⟨t, ht, hM⟩ := precomputePrimes_spec fuel hf t0
  have hpow : 2 ^ (s.length - 1) ≤ 2 ^ 19 := Nat.pow_le_pow_right (by norm_num) (by omega)
  have hpow4 : 2 ^ 2 ≤ 2 ^ (s.length - 1) := Nat.pow_le_pow_right (by norm_num) (by omega)
  norm_num at hpow hpow4
  have hadm : exactLimit s.length (ones s) ≤ 1000000 := by
    rw [hk, exactLimit_one]
    omega
  obtain ⟨_, hlim, hscan⟩ := scanOf_spec s hadm fuel hf t hM
  rw [hk, exactLimit_one] at hlim hscan
  have hc1 : counted ((1 : Nat) : Int) (2 ^ (s.length - 1)) = {2} := by
    rw [Nat.cast_one]
    exact counted_one _ (by omega)
  rw [hc1] at hscan
  refine ⟨t, _, ht, hscan, ?_, ?_, ?_, ?_, ?_⟩
  · rw [countPrimeBinaryStrings, hscan]
    rfl
  · rw [hlim]
    push_cast
    rfl
  · rw [hlim]
    exact_mod_cast hpow4
  · show Finset.image (fun x : Nat => (x : Int)) {2} = {2}
    decide
  · show ((({2} : Finset Nat).card : Nat) : Int) = 1
    decide

theorem count_single_one_witness :
    ones "100" = 1 ∧ 3 ≤ "100".length ∧ "100".length ≤ 20 ∧ (1000000 : Nat) ≤ 1000000 ∧
    ∃ t st, precomputePrimes 1000000 #[] = some t ∧ scanOf 1000000 t "100" = some st ∧
      countPrimeBinaryStrings 1000000 t "100" = some 1 ∧
      limitOf (lengthOf "100") (onesOf "100") = 2 ^ ("100".length - 1) ∧
      4 ≤ limitOf (lengthOf "100") (onesOf "100") ∧ st.seen = {2} ∧ st.cnt = 1 :=
  ⟨by decide, by decide, by decide, le_refl _,
    count_single_one "100" (by decide) (by decide) (by decide) 1000000 (le_refl _) #[]⟩

/-- C19: for an admissible string `s` and a string `s'` that has one more `'0'`, put
anywhere into `s`, and whose limit is still at most `MAX`, the result for `s` is at most
the result for `s'`. -/
theorem count_monotone_length (s s' : String) (hs : Admissible s) (a b : List Char)
    (h : s.data = a ++ b) (h' : s'.data = a ++ '0' :: b)
    (hl : exactLimit s'.length (ones s') ≤ 1000000)
    (fuel : Nat) (hf : 1000000 ≤ fuel) (t0 : Array Bool) :
    ∃ t c c', precomputePrimes fuel t0 = some t ∧
      countPrimeBinaryStrings fuel t s = some c ∧
      countPrimeBinaryStrings fuel t s' = some c' ∧ c ≤ c' := by
  obtain ⟨t, ht, hM⟩ := precomputePrimes_spec fuel hf t0
  have hlen : s'.length = s.length + 1 := by
    simp [String.length, h, h']
    omega
  have hones : ones s' = ones s := by
    simp [ones, h, h', List.count_cons]
  have hle : exactLimit s.length (ones s) ≤ exactLimit s'.length (ones s') := by
    rw [hlen, hones, exactLimit_succ_length _ _ (ones_le_length s)]
    omega
  refine ⟨t, _, _, ht, count_spec s hs.2.2 fuel hf t hM, count_spec s' hl fuel hf t hM, ?_⟩
  exact_mod_cast Finset.card_le_card (counted_mono (by rw [hones]) hle)

theorem count_monotone_length_witness :
    Admissible "101" ∧ "101".data = ['1'] ++ ['0', '1'] ∧
      "1001".data = ['1'] ++ '0' :: ['0', '1'] ∧
      exactLimit "1001".length (ones "1001") ≤ 1000000 ∧ (1000000 : Nat) ≤ 1000000 ∧
      ∃ t c c', precomputePrimes 1000000 #[] = some t ∧
        countPrimeBinaryStrings 1000000 t "101" = some c ∧
        countPrimeBinaryStrings 1000000 t "1001" = some c' ∧ c ≤ c' :=
  ⟨by decide, by decide, by decide, by decide, le_refl _,
    count_monotone_length "101" "1001" (by decide) ['1'] ['0', '1'] (by decide) (by decide)
      (by decide) 1000000 (le_refl _) #[]⟩

/-- C20: for a string with at least one `'1'` whose exact limit
`(2^k - 1) * 2^(n-k)` is at most `MAX`, the length is at most 20, and the expression
`((1 << k) - 1) << (n - k)` in 32-bit `int` arithmetic has that exact value: it is the
value of the evaluation in which a shift count outside `[0, 32)` or a result outside the
range of `int` is a failure, and of the evaluation with wrap-around. -/
theorem limit_int_exact (s : String) (hk : 1 ≤ ones s)
    (h : exactLimit s.length (ones s) ≤ 1000000) :
    s.length ≤ 20 ∧ ones s ≤ s.length ∧
      lengthOf s = s.length ∧ onesOf s = ones s ∧
      limitChecked (lengthOf s) (onesOf s) = some (exactLimit s.length (ones s) : Int) ∧
      limitOf (lengthOf s) (onesOf s) = exactLimit s.length (ones s) := by
  have hkn := ones_le_length s
  have hn := length_le_of_exactLimit_le s.length (ones s) hk hkn h
  have h1 : lengthOf s = s.length := wrap32_natCast (by omega)
  have hk20 : ones s ≤ 20 := by omega
  have h2 : onesOf s = ones s := wrap32_natCast (n := ones s) (by omega)
  refine ⟨hn, hkn, h1, h2, ?_, ?_⟩
  · rw [h1, h2]
    exact limitChecked_exact _ _ hkn (by omega)
  · rw [h1, h2]
    exact limitOf_exact_of_le _ _ hkn (by omega)

theorem limit_int_exact_witness :
    1 ≤ ones "10101" ∧ exactLimit "10101".length (ones "10101") ≤ 1000000 ∧
    ("10101".length ≤ 20 ∧ ones "10101" ≤ "10101".length ∧
      lengthOf "10101" = "10101".length ∧ onesOf "10101" = ones "10101" ∧
      limitChecked (lengthOf "10101") (onesOf "10101") =
        some (exactLimit "10101".length (ones "10101") : Int) ∧
      limitOf (lengthOf "10101") (onesOf "10101") = exactLimit "10101".length (ones "10101")) :=
  ⟨by decide, by decide, limit_int_exact "10101" (by decide) (by decide)⟩

end CountPrimes
